import Mathlib

/-!
Verification development for the systolic-array matrix-multiplication
simulator (SystemC).  The embedding models the synchronous semantics of the
SystemC design: every `SC_THREAD`/`SC_CTHREAD` is sensitive to `clk.pos()`, so
all processes run once per clock edge, and an `sc_signal` written during one
edge becomes visible to clocked processes at the next edge (signal updates
happen at delta-cycle boundaries).  Consequently the whole fabric is a
two-phase synchronous machine: at each edge every process reads the values
written at the previous edge.  A `wait(1, SC_NS)` inside a thread moves the
thread past the current edge's delta cycles, so a read performed right after
it observes the values written *at* that edge.

`float` data is modelled by `ℚ` (exact arithmetic; the source's values are
small integers, so `+`/`*` incur no rounding in the tested range and the
1e-3 tolerance comparison is faithfully represented).

Tile buffers (`float*` with a stride of at least `max M N`) are modelled as
total functions `ℕ → ℕ → ℚ`: every buffer access `buf[r * stride + c]` in the
relevant code has `c < stride`, so the flat buffer is exactly a 2-D matrix
and no aliasing between rows can occur.
-/

/-- State of one processing element, from `Phase8/PE.h`: the four internal
registers (`preload_buffer`, `accumulator_buffer`, `right_out_buffer`,
`bottom_out_buffer`) and the OS-drain flag `drain_value_sent`.  The values
driven on `out_right`/`out_bottom` at an edge are exactly `rightOut` /
`bottomOut` of the state produced at that edge. -/
structure PEState where
  preloadBuffer : ℚ
  accumulator : ℚ
  rightOut : ℚ
  bottomOut : ℚ
  drainSent : Bool
deriving DecidableEq, Repr

/-- The input signal values a PE observes at one clock edge. -/
structure PEIn where
  reset : Bool
  outputStationary : Bool
  preloadValid : Bool
  preloadData : ℚ
  inTop : ℚ
  inLeft : ℚ
deriving DecidableEq, Repr

/-- One clock edge of `PE::process` from `Phase8/PE.h`.  Branch structure is
the source's: reset; OS drain (`preload_valid` high: first tick emits the
accumulator, later ticks pass `in_top` through, `out_right = 0`); OS
accumulate (`accumulator += in_top * in_left`, pass-through outputs, clear
`drain_value_sent`); WS (latch `preload_buffer` when `preload_valid`, then
`accumulator = in_left * preload_buffer + in_top`, `out_bottom` = the new
accumulator, `out_right = in_left`, clear `drain_value_sent`). -/
def PE.process (s : PEState) (x : PEIn) : PEState :=
  if x.reset then
    { preloadBuffer := 0, accumulator := 0, rightOut := 0, bottomOut := 0,
      drainSent := false }
  else if x.outputStationary then
    if x.preloadValid then
      if s.drainSent = false then
        { s with bottomOut := s.accumulator, drainSent := true, rightOut := 0 }
      else
        { s with bottomOut := x.inTop, rightOut := 0 }
    else
      { preloadBuffer := s.preloadBuffer,
        accumulator := s.accumulator + x.inTop * x.inLeft,
        rightOut := x.inLeft, bottomOut := x.inTop, drainSent := false }
  else
    { preloadBuffer := if x.preloadValid then x.preloadData else s.preloadBuffer,
      accumulator :=
        x.inLeft * (if x.preloadValid then x.preloadData else s.preloadBuffer)
          + x.inTop,
      rightOut := x.inLeft,
      bottomOut :=
        x.inLeft * (if x.preloadValid then x.preloadData else s.preloadBuffer)
          + x.inTop,
      drainSent := false }

/-- The grid of PE states, indexed by (row, column); only indices below the
grid dimensions are meaningful. -/
def Grid : Type := ℕ → ℕ → PEState

/-- The boundary/control signal values the grid observes at one clock edge. -/
structure GridIn where
  reset : Bool
  outputStationary : Bool
  preloadValid : Bool
  preloadData : ℕ → ℕ → ℚ
  inTop : ℕ → ℚ
  inLeft : ℕ → ℚ

/-- One clock edge of the whole `SA_MxN` grid (`Phase10/SAmxn.h` wiring):
PE(i,j) reads `in_top` from the boundary when `i = 0` and otherwise from
PE(i-1,j)'s `out_bottom` register, symmetrically `in_left` from the boundary
when `j = 0` and otherwise from PE(i,j-1)'s `out_right` register.  All PEs
read the previous edge's registers (two-phase update). -/
def gridStep (x : GridIn) (g : Grid) : Grid :=
  fun i j =>
    PE.process (g i j)
      { reset := x.reset
        outputStationary := x.outputStationary
        preloadValid := x.preloadValid
        preloadData := x.preloadData i j
        inTop := if i = 0 then x.inTop j else (g (i - 1) j).bottomOut
        inLeft := if j = 0 then x.inLeft i else (g i (j - 1)).rightOut }

/-- The grid state at the start of a tile job: all registers zero.  This is
the state after the controller's reset pulse, and equally the state a WS tile
job leaves behind (the trailing `M + N` flush cycles of the stream loop feed
only zeroes, so every output register has drained to zero by the job's end). -/
def initGrid : Grid := fun _ _ =>
  { preloadBuffer := 0, accumulator := 0, rightOut := 0, bottomOut := 0,
    drainSent := false }

/-- Functional update of one cell of a matrix buffer. -/
def matUpdate (C : ℕ → ℕ → ℚ) (r c : ℕ) (v : ℚ) : ℕ → ℕ → ℚ :=
  fun r' c' => if r' = r ∧ c' = c then v else C r' c'

/-- The all-zeroes matrix buffer. -/
def zeroMat : ℕ → ℕ → ℚ := fun _ _ => 0

/-! ## Weight-stationary tile job
(`MatMul_Controller::tiling_process`, WS branch, `Project_Implementation/Phase10/SAmxn.h`).

Edge indexing for one WS tile job: edge `0` is the edge at which the
controller deasserts `preload_valid` and writes the cycle-`0` feeds (the
preload signals were written at the previous edge, so the PEs latch their
weights at edge `0`).  Controller loop iteration `c` executes at edge `c`;
the feeds it writes are observed by the PEs at edge `c + 1`, and the
`sa_out_bottom[j].read()` it performs observes the value the bottom-row PE
wrote at edge `c - 1`. -/

/-- WS preload data: `W_ptr[i * stride + j]` gated by `i < k2 && j < k3`,
zero otherwise. -/
def wsPreloadData (k2 k3 : ℕ) (Wt : ℕ → ℕ → ℚ) : ℕ → ℕ → ℚ :=
  fun i j => if i < k2 ∧ j < k3 then Wt i j else 0

/-- WS left feed at controller cycle `c`, row `i`:
`A_ptr[a_row * stride + i]` with `a_row = clk_cycle - i`, gated by
`a_row >= 0 && a_row < k1 && i < k2`. -/
def wsFeedA (k1 k2 : ℕ) (At : ℕ → ℕ → ℚ) (c : ℕ) (i : ℕ) : ℚ :=
  if i ≤ c ∧ c - i < k1 ∧ i < k2 then At (c - i) i else 0

/-- The value of the `sa_in_left[i]` signal at edge `s` of a WS tile job:
zero at edge `0` (nothing written yet), then the cycle-`(s-1)` feed. -/
def wsLeftSig (k1 k2 : ℕ) (At : ℕ → ℕ → ℚ) (s : ℕ) (i : ℕ) : ℚ :=
  if s = 0 then 0 else wsFeedA k1 k2 At (s - 1) i

/-- The signal values the grid observes at edge `s` of a WS tile job.  At
edge `0` `preload_valid` is high (written at the previous edge) and the data
inputs still hold the idle zeroes; afterwards `preload_valid` is low and
`sa_in_left` carries the skewed A feeds, `sa_in_top` is held at zero. -/
def wsGridIn (k1 k2 k3 : ℕ) (At Wt : ℕ → ℕ → ℚ) (s : ℕ) : GridIn :=
  { reset := false
    outputStationary := false
    preloadValid := s = 0
    preloadData := wsPreloadData k2 k3 Wt
    inTop := fun _ => 0
    inLeft := fun i => wsLeftSig k1 k2 At s i }

/-- Grid state at the start of edge `s` of a WS tile job (so `wsGridAt 0` is
the pre-job state and edge `s` transforms `wsGridAt s` into
`wsGridAt (s+1)`). -/
def wsGridAt (k1 k2 k3 : ℕ) (At Wt : ℕ → ℕ → ℚ) : ℕ → Grid
  | 0 => initGrid
  | s + 1 => gridStep (wsGridIn k1 k2 k3 At Wt s) (wsGridAt k1 k2 k3 At Wt s)

/-- The value the controller observes on `sa_out_bottom[j]` at loop cycle
`c` of a WS tile job (the register the bottom-row PE of column `j` wrote at
the previous edge). -/
def wsRead (M k1 k2 k3 : ℕ) (At Wt : ℕ → ℕ → ℚ) (c j : ℕ) : ℚ :=
  ((wsGridAt k1 k2 k3 At Wt c) (M - 1) j).bottomOut

/-- One WS loop cycle's drain writes (the inner `for j` loop): for each
column `j < N`, with `r_out = clk_cycle - M - j - 1`, if
`r_out >= 0 && r_out < k1 && j < k3` then `C_ptr[r_out * stride + j] +=`
the observed bottom value. -/
def wsCycleWrites (M N k1 k2 k3 : ℕ) (At Wt : ℕ → ℕ → ℚ) (c : ℕ)
    (C : ℕ → ℕ → ℚ) : ℕ → ℕ → ℚ :=
  (List.range N).foldl
    (fun C j =>
      if M + j + 1 ≤ c ∧ c - M - j - 1 < k1 ∧ j < k3 then
        matUpdate C (c - M - j - 1) j
          (C (c - M - j - 1) j + wsRead M k1 k2 k3 At Wt c j)
      else C)
    C

/-- The C tile buffer after the first `n` cycles of the WS stream/drain
loop. -/
def wsCAfter (M N k1 k2 k3 : ℕ) (At Wt : ℕ → ℕ → ℚ) (C0 : ℕ → ℕ → ℚ)
    (n : ℕ) : ℕ → ℕ → ℚ :=
  (List.range n).foldl (fun C c => wsCycleWrites M N k1 k2 k3 At Wt c C) C0

/-- A full WS tile job (`tiling_process`, WS branch): preload the gated
weight tile, then stream and drain for `total_cycles = k1 + M + N` loop
cycles, accumulating in-range drained values into the C tile buffer. -/
def wsTile (M N k1 k2 k3 : ℕ) (At Wt : ℕ → ℕ → ℚ) (C0 : ℕ → ℕ → ℚ) :
    ℕ → ℕ → ℚ :=
  wsCAfter M N k1 k2 k3 At Wt C0 (k1 + M + N)

/-! ## Output-stationary tile job
(`MatMul_Controller::tiling_process`, OS branch, `Project_Implementation/Phase10/SAmxn.h`).

The OS branch first pulses `sa_reset` (which zeroes every PE register), so
the job's grid history starts from `initGrid`.  Edge `0` below is the first
edge after the reset pulse (`sa_reset` low again, `preload_valid` low); the
accumulate loop's cycle `c` executes at edge `c`, writing feeds observed by
the PEs at edge `c + 1`.  The loop runs `stream_cycles = k2 + M + N + 1`
cycles.  At edge `stream_cycles` the controller writes zero inputs and
asserts `preload_valid`, so the PEs first observe drain mode at edge
`stream_cycles + 1`.  The controller then executes `wait()` followed by
`wait(1, SC_NS)`: the timed wait moves it past the delta cycles of edge
`stream_cycles + 1`, so drain read `0` observes the values written *at* edge
`stream_cycles + 1`; each later drain read `t` happens at the first delta of
edge `stream_cycles + 1 + t` and therefore observes the values written at
edge `stream_cycles + t`. -/

/-- `stream_cycles` of the OS accumulate loop: `k2 + M + N + 1`. -/
def osStreamCycles (M N k2 : ℕ) : ℕ := k2 + M + N + 1

/-- OS left feed at accumulate cycle `c`, row `i`:
`A_ptr[i * stride + k]` with `k = clk_cycle - i`, gated by
`k >= 0 && k < k2 && i < k1`. -/
def osFeedL (k1 k2 : ℕ) (At : ℕ → ℕ → ℚ) (c : ℕ) (i : ℕ) : ℚ :=
  if i ≤ c ∧ c - i < k2 ∧ i < k1 then At i (c - i) else 0

/-- OS top feed at accumulate cycle `c`, column `j`:
`W_ptr[k * stride + j]` with `k = clk_cycle - j`, gated by
`k >= 0 && k < k2 && j < k3`. -/
def osFeedT (k2 k3 : ℕ) (Wt : ℕ → ℕ → ℚ) (c : ℕ) (j : ℕ) : ℚ :=
  if j ≤ c ∧ c - j < k2 ∧ j < k3 then Wt (c - j) j else 0

/-- The value of the `sa_in_left[i]` signal at edge `s` of an OS tile job. -/
def osLeftSig (k1 k2 : ℕ) (At : ℕ → ℕ → ℚ) (s : ℕ) (i : ℕ) : ℚ :=
  if s = 0 then 0 else osFeedL k1 k2 At (s - 1) i

/-- The value of the `sa_in_top[j]` signal at edge `s` of an OS tile job. -/
def osTopSig (k2 k3 : ℕ) (Wt : ℕ → ℕ → ℚ) (s : ℕ) (j : ℕ) : ℚ :=
  if s = 0 then 0 else osFeedT k2 k3 Wt (s - 1) j

/-- The signal values the grid observes at edge `s` of an OS tile job:
accumulate-phase feeds while `s ≤ stream_cycles` (the cycle-`c` feeds are
seen at edge `c + 1`, and `preload_valid`, asserted at edge `stream_cycles`,
is first seen one edge later), then drain mode (`preload_valid` high, zero
feeds). -/
def osGridIn (M N k1 k2 k3 : ℕ) (At Wt : ℕ → ℕ → ℚ) (s : ℕ) : GridIn :=
  if s ≤ osStreamCycles M N k2 then
    { reset := false
      outputStationary := true
      preloadValid := false
      preloadData := fun _ _ => 0
      inTop := fun j => osTopSig k2 k3 Wt s j
      inLeft := fun i => osLeftSig k1 k2 At s i }
  else
    { reset := false
      outputStationary := true
      preloadValid := true
      preloadData := fun _ _ => 0
      inTop := fun _ => 0
      inLeft := fun _ => 0 }

/-- Grid state at the start of edge `s` of an OS tile job (`osGridAt 0` is
the post-reset state). -/
def osGridAt (M N k1 k2 k3 : ℕ) (At Wt : ℕ → ℕ → ℚ) : ℕ → Grid
  | 0 => initGrid
  | s + 1 => gridStep (osGridIn M N k1 k2 k3 At Wt s)
      (osGridAt M N k1 k2 k3 At Wt s)

/-- The value the controller observes on `sa_out_bottom[j]` at OS drain read
`t`: read `0` happens 1 ns after edge `stream_cycles + 1` and sees the
registers written at that edge; read `t ≥ 1` happens at the first delta of
edge `stream_cycles + 1 + t` and sees the registers written at edge
`stream_cycles + t`. -/
def osDrainRead (M N k1 k2 k3 : ℕ) (At Wt : ℕ → ℕ → ℚ) (t j : ℕ) : ℚ :=
  if t = 0 then
    ((osGridAt M N k1 k2 k3 At Wt (osStreamCycles M N k2 + 2)) (M - 1) j).bottomOut
  else
    ((osGridAt M N k1 k2 k3 At Wt (osStreamCycles M N k2 + 1 + t)) (M - 1) j).bottomOut

/-- A full OS tile job (`tiling_process`, OS branch): reset the PE
accumulators, run the accumulate loop (no reads of the grid outputs), then
drain for `M` reads; drain read `t` accumulates (`+=`) into C tile row
`i_out = M - 1 - clk_cycle` for each column `j`, gated by
`i_out >= 0 && i_out < k1 && j < k3`. -/
def osTile (M N k1 k2 k3 : ℕ) (At Wt : ℕ → ℕ → ℚ) (C0 : ℕ → ℕ → ℚ) :
    ℕ → ℕ → ℚ :=
  (List.range M).foldl
    (fun C t =>
      (List.range N).foldl
        (fun C j =>
          if M - 1 - t < k1 ∧ j < k3 then
            matUpdate C (M - 1 - t) j
              (C (M - 1 - t) j + osDrainRead M N k1 k2 k3 At Wt t j)
          else C)
        C)
    C0

/-! ## File-backed memory (`Project_Implementation/Phase9/Memory.h`)

The memory file is modelled as `ℤ → Option ℚ`, mapping a float index (byte
address divided by 4) to its stored value, with `none` for an `XXXX`
(uninitialized) line.  The file's finite size is not modelled: indices
outside the file also read as `none` (the source returns silent 0.0 there
instead of a warned 0.0; no behaviour relevant to the claims depends on the
distinction). -/

/-- `Memory::read_from_file`: a misaligned byte address warns and returns
0.0; an uninitialized (`XXXX`) line warns and returns 0.0; otherwise the
stored value is returned.  The `Bool` is the warning diagnostic. -/
def Memory.readFromFile (store : ℤ → Option ℚ) (addr : ℤ) : ℚ × Bool :=
  if addr % 4 ≠ 0 then (0, true)
  else
    match store (Int.tdiv addr 4) with
    | none => (0, true)
    | some v => (v, false)

/-- `Memory::write_to_file`: a misaligned byte address warns and leaves the
file unchanged; otherwise the addressed line is overwritten. -/
def Memory.writeToFile (store : ℤ → Option ℚ) (addr : ℤ) (v : ℚ) :
    (ℤ → Option ℚ) × Bool :=
  if addr % 4 ≠ 0 then (store, true)
  else (fun idx => if idx = Int.tdiv addr 4 then some v else store idx, false)

/-- The memory module's externally visible state: the backing file plus the
two output signals (`read_data` holds its last driven value, `ready`). -/
structure MemIfState where
  store : ℤ → Option ℚ
  readData : ℚ
  ready : Bool

/-- The memory module's input signal values at one clock edge. -/
structure MemIn where
  reset : Bool
  readEnable : Bool
  writeEnable : Bool
  address : ℤ
  writeData : ℚ

/-- One clock edge of `Memory::memory_process`: reset; read when
`read_enable && !write_enable`; write when `write_enable && !read_enable`;
when both enables are high, do nothing and log an error (the returned
`Bool`); `ready` defaults to false and is only raised by a performed read or
write. -/
def Memory.memoryProcess (st : MemIfState) (x : MemIn) : MemIfState × Bool :=
  if x.reset then
    ({ store := st.store, readData := 0, ready := false }, false)
  else if x.readEnable && !x.writeEnable then
    ({ store := st.store,
       readData := (Memory.readFromFile st.store x.address).1,
       ready := true }, false)
  else if x.writeEnable && !x.readEnable then
    ({ store := (Memory.writeToFile st.store x.address x.writeData).1,
       readData := st.readData, ready := true }, false)
  else if x.readEnable && x.writeEnable then
    ({ st with ready := false }, true)
  else
    ({ st with ready := false }, false)

/-! ## Tiling controllers (`Phase7/Control.h`, `Phase9/Control.h`) -/

/-- `Phase7 control_process`: `tile_width = (M < N) ? M : N`. -/
def phase7TileWidth (M N : ℕ) : ℕ := if M < N then M else N

/-- `Phase7 control_process`: `num_i_tiles = (k1 + M - 1) / M`. -/
def phase7NumITiles (M k1 : ℕ) : ℕ := (k1 + M - 1) / M

/-- `Phase7 control_process`:
`num_j_tiles = (k3 + tile_width - 1) / tile_width`. -/
def phase7NumJTiles (M N k3 : ℕ) : ℕ :=
  (k3 + phase7TileWidth M N - 1) / phase7TileWidth M N

/-- `Phase7 control_process`: `num_k_tiles = (k2 + M - 1) / M`. -/
def phase7NumKTiles (M k2 : ℕ) : ℕ := (k2 + M - 1) / M

/-- `Phase9 control_process` (square grid): `num_j_tiles = (k3 + M - 1) / M`. -/
def phase9NumJTiles (M k3 : ℕ) : ℕ := (k3 + M - 1) / M

/-- `Phase9 read_A_tile` over the memory-read response `mem` (the value
`mem_read_data` delivers for a byte address: the stored value, or 0.0 for
uninitialized locations): first zero the whole `M × M` buffer, then fill
exactly the entries whose global coordinates lie inside the logical
`k1 × k2` matrix, reading byte address
`a_base + (global_row * k2 + global_col) * 4`. -/
def readATile (M : ℕ) (mem : ℤ → ℚ) (aBase : ℤ) (k1 k2 iT kT : ℕ) :
    ℕ → ℕ → ℚ :=
  (List.range M).foldl
    (fun buf i =>
      (List.range M).foldl
        (fun buf j =>
          if iT * M + i < k1 ∧ kT * M + j < k2 then
            matUpdate buf i j
              (mem (aBase + ((iT * M + i) * k2 + (kT * M + j)) * 4))
          else buf)
        buf)
    zeroMat

/-- `Phase9 read_W_tile`: as `readATile`, for the `k2 × k3` weight matrix at
tile position `(k_tile, j_tile)`. -/
def readWTile (M : ℕ) (mem : ℤ → ℚ) (wBase : ℤ) (k2 k3 kT jT : ℕ) :
    ℕ → ℕ → ℚ :=
  (List.range M).foldl
    (fun buf i =>
      (List.range M).foldl
        (fun buf j =>
          if kT * M + i < k2 ∧ jT * M + j < k3 then
            matUpdate buf i j
              (mem (wBase + ((kT * M + i) * k3 + (jT * M + j)) * 4))
          else buf)
        buf)
    zeroMat

/-- The committed output of `Phase7 control_process`'s loop nest
(i → j → k order), at tile granularity: for each output tile `(i,j)` the
C tile buffer is zeroed, the per-k-tile contributions `p i j k` are
accumulated into it in ascending k order (each `matmul_ctrl` invocation adds
its partial results into the shared buffer in place), and the finished tile
is then committed.  `p i j k` abstracts the tile-level contribution of the
`MatMul_Controller` invocation for `(i_tile, j_tile, k_tile)` at one fixed
buffer cell. -/
def phase7Committed (nI nJ nK : ℕ) (p : ℕ → ℕ → ℕ → ℚ) : ℕ → ℕ → ℚ :=
  (List.range nI).foldl
    (fun Cm iT =>
      (List.range nJ).foldl
        (fun Cm jT =>
          matUpdate Cm iT jT
            ((List.range nK).foldl (fun acc kT => acc + p iT jT kT) 0))
        Cm)
    zeroMat

/-- The committed output of `Phase9 control_process`'s data-reuse loop nest
(k → i → j order): all C tile caches start zeroed; for each k-tile, every
output tile `(i,j)` is visited once, its cached value loaded, `p i j k`
added, and the result stored back; finally every cache is written out. -/
def phase9Committed (nI nJ nK : ℕ) (p : ℕ → ℕ → ℕ → ℚ) : ℕ → ℕ → ℚ :=
  (List.range nK).foldl
    (fun cache kT =>
      (List.range nI).foldl
        (fun cache iT =>
          (List.range nJ).foldl
            (fun cache jT =>
              matUpdate cache iT jT (cache iT jT + p iT jT kT))
            cache)
        cache)
    zeroMat

/-! ## Dimension intake (`Phase9 control_process`, C++ `int` arithmetic)

The controller reads `K1/K2/K3` as C++ `int`s and computes the tile counts
with truncating integer division; there is no validation, so nonpositive
dimensions flow straight into the loop bounds, and a loop
`for (t = 0; t < n; t++)` with nonpositive `n` simply runs zero times. -/

/-- The Phase9 tile-count formula `(k + M - 1) / M` over C++ `int`s
(truncating division); used identically for the i, j and k dimensions. -/
def phase9NumTilesInt (M : ℕ) (k1 : ℤ) : ℤ := Int.tdiv (k1 + M - 1) M

/-- The list of `(i_tile, j_tile, k_tile)` triples the Phase9
`control_process` iterates, in its k → i → j loop order, with C++ `int`
loop bounds. -/
def phase9TileTriples (M : ℕ) (k1 k2 k3 : ℤ) : List (ℕ × ℕ × ℕ) :=
  (List.range (phase9NumTilesInt M k2).toNat).flatMap fun kT =>
    (List.range (phase9NumTilesInt M k1).toNat).flatMap fun iT =>
      (List.range (phase9NumTilesInt M k3).toNat).map fun jT => (iT, jT, kT)

/-! ## Whole-pipeline runs (for the end-to-end properties)

Modelled from the spec: the Phase10 tiling wrapper (the `Control.h`
included by `Phase10/tb2.cpp`, a `MemoryBackedController` driving
`Project_Implementation/Phase10/SAmxn.h`) is not under `src/`; this layer is
modelled from spec §4.5 and §3 (and mirrors the in-src `Phase7/Control.h`
loop nest): tile counts `ceil(k1/M)`, `ceil(k3/tile_width)`, `ceil(k2/M)`
with `tile_width = min(M, N)`; for each `(i_tile, j_tile)` the C tile is
zeroed and the k-tiles are processed in ascending order, reading zero-padded
A/W sub-blocks and invoking one WS or OS tile job per k-tile with the
actual (edge-clipped) tile dimensions; the finished tile is committed to the
output matrix.  The logical matrices are given directly as functions (the
byte-addressed store is verified separately). -/

/-- Modelled from the spec: the zero-padded A tile buffer for tile
`(i_tile, k_tile)`. -/
def subA (k1 k2 M : ℕ) (A : ℕ → ℕ → ℚ) (iT kT : ℕ) : ℕ → ℕ → ℚ :=
  fun i j =>
    if i < M ∧ j < M ∧ iT * M + i < k1 ∧ kT * M + j < k2 then
      A (iT * M + i) (kT * M + j)
    else 0

/-- Modelled from the spec: the zero-padded W tile buffer for tile
`(k_tile, j_tile)`, with the column tiling stride `tw = tile_width`. -/
def subW (k2 k3 M tw : ℕ) (W : ℕ → ℕ → ℚ) (kT jT : ℕ) : ℕ → ℕ → ℚ :=
  fun i j =>
    if i < M ∧ j < M ∧ kT * M + i < k2 ∧ jT * tw + j < k3 then
      W (kT * M + i) (jT * tw + j)
    else 0

/-- Modelled from the spec: committing a finished C tile to the output
matrix (rows `i_tile*M ..`, columns `j_tile*tw ..`, clipped to the logical
bounds). -/
def commitTile (k1 k3 M tw : ℕ) (Cg : ℕ → ℕ → ℚ) (Ct : ℕ → ℕ → ℚ)
    (iT jT : ℕ) : ℕ → ℕ → ℚ :=
  fun r c =>
    if iT * M ≤ r ∧ r < iT * M + M ∧ jT * tw ≤ c ∧ c < jT * tw + tw ∧
        r < k1 ∧ c < k3 then
      Ct (r - iT * M) (c - jT * tw)
    else Cg r c

/-- Modelled from the spec: a complete tiled `C = A · W` run in the selected
dataflow mode, combining the spec-modelled wrapper with the source-faithful
per-tile WS/OS jobs. -/
def runTiled (osMode : Bool) (M N k1 k2 k3 : ℕ) (A W : ℕ → ℕ → ℚ) :
    ℕ → ℕ → ℚ :=
  (List.range (phase7NumITiles M k1)).foldl
    (fun Cg iT =>
      (List.range (phase7NumJTiles M N k3)).foldl
        (fun Cg jT =>
          commitTile k1 k3 M (phase7TileWidth M N) Cg
            ((List.range (phase7NumKTiles M k2)).foldl
              (fun Ct kT =>
                if osMode then
                  osTile M N (min M (k1 - iT * M)) (min M (k2 - kT * M))
                    (min (phase7TileWidth M N) (k3 - jT * phase7TileWidth M N))
                    (subA k1 k2 M A iT kT)
                    (subW k2 k3 M (phase7TileWidth M N) W kT jT) Ct
                else
                  wsTile M N (min M (k1 - iT * M)) (min M (k2 - kT * M))
                    (min (phase7TileWidth M N) (k3 - jT * phase7TileWidth M N))
                    (subA k1 k2 M A iT kT)
                    (subW k2 k3 M (phase7TileWidth M N) W kT jT) Ct)
              zeroMat)
            iT jT)
        Cg)
    zeroMat

/-- The naive triple-loop reference multiply of `Phase10/tb2.cpp`
(`C_expected[i][j] = Σ_k A[i][k] * W[k][j]`). -/
def naiveMatMul (k2 : ℕ) (A W : ℕ → ℕ → ℚ) : ℕ → ℕ → ℚ :=
  fun i j => ∑ k ∈ Finset.range k2, A i k * W k j

/-- The OS accumulator of PE `(i, j)` at the end of the accumulate phase. -/
def osAccv (M N k1 k2 k3 : ℕ) (At Wt : ℕ → ℕ → ℚ) (i j : ℕ) : ℚ :=
  ((osGridAt M N k1 k2 k3 At Wt (osStreamCycles M N k2 + 1)) i j).accumulator

/-- The spec's §8 concrete scenario matrix `A = [[1,2],[3,4]]`. -/
def matA2 : ℕ → ℕ → ℚ := fun i j =>
  if i = 0 ∧ j = 0 then 1 else if i = 0 ∧ j = 1 then 2
  else if i = 1 ∧ j = 0 then 3 else if i = 1 ∧ j = 1 then 4 else 0

/-- The spec's §8 concrete scenario matrix `W = [[5,6],[7,8]]`. -/
def matW2 : ℕ → ℕ → ℚ := fun i j =>
  if i = 0 ∧ j = 0 then 5 else if i = 0 ∧ j = 1 then 6
  else if i = 1 ∧ j = 0 then 7 else if i = 1 ∧ j = 1 then 8 else 0

/-- A constant nonzero C tile buffer, used to distinguish overwriting from
accumulating drain writes. -/
def matHundred : ℕ → ℕ → ℚ := fun _ _ => 100

/-! # Lemmas: weight-stationary grid behaviour -/

/-- One-step unfolding of the WS grid history. -/
theorem wsGridAt_step (k1 k2 k3 : ℕ) (At Wt : ℕ → ℕ → ℚ) (s i j : ℕ) :
    (wsGridAt k1 k2 k3 At Wt (s + 1)) i j
      = PE.process ((wsGridAt k1 k2 k3 At Wt s) i j)
          { reset := false
            outputStationary := false
            preloadValid := decide (s = 0)
            preloadData := wsPreloadData k2 k3 Wt i j
            inTop := if i = 0 then 0
              else ((wsGridAt k1 k2 k3 At Wt s) (i - 1) j).bottomOut
            inLeft := if j = 0 then wsLeftSig k1 k2 At s i
              else ((wsGridAt k1 k2 k3 At Wt s) i (j - 1)).rightOut } := rfl

/-- WS-mode field values of one PE step. -/
theorem PE.process_ws (s : PEState) (x : PEIn) (hr : x.reset = false)
    (ho : x.outputStationary = false) :
    PE.process s x
      = { preloadBuffer := if x.preloadValid then x.preloadData else s.preloadBuffer
          accumulator :=
            x.inLeft * (if x.preloadValid then x.preloadData else s.preloadBuffer)
              + x.inTop
          rightOut := x.inLeft
          bottomOut :=
            x.inLeft * (if x.preloadValid then x.preloadData else s.preloadBuffer)
              + x.inTop
          drainSent := false } := by
  simp [PE.process, hr, ho]

/-- The `out_right` register after edge `s`: WS PEs forward `in_left`, so
column `j` holds the left-boundary signal of `j` edges earlier. -/
theorem wsGridAt_rightOut (k1 k2 k3 : ℕ) (At Wt : ℕ → ℕ → ℚ) :
    ∀ s i j, ((wsGridAt k1 k2 k3 At Wt (s + 1)) i j).rightOut
      = wsLeftSig k1 k2 At (s - j) i := by
  intro s
  induction s with
  | zero =>
    intro i j
    rw [wsGridAt_step, PE.process_ws _ _ rfl rfl]
    cases j with
    | zero => rfl
    | succ jj => simp [wsGridAt, initGrid, wsLeftSig]
  | succ ss ih =>
    intro i j
    rw [wsGridAt_step, PE.process_ws _ _ rfl rfl]
    cases j with
    | zero => rfl
    | succ jj =>
      simp only [Nat.succ_ne_zero, if_false, Nat.add_sub_cancel,
        Nat.succ_sub_succ]
      exact ih i jj

/-- From edge `0` on, every PE holds the gated preloaded weight. -/
theorem wsGridAt_preload (k1 k2 k3 : ℕ) (At Wt : ℕ → ℕ → ℚ) :
    ∀ s i j, ((wsGridAt k1 k2 k3 At Wt (s + 1)) i j).preloadBuffer
      = wsPreloadData k2 k3 Wt i j := by
  intro s
  induction s with
  | zero =>
    intro i j
    rw [wsGridAt_step, PE.process_ws _ _ rfl rfl]
    simp
  | succ ss ih =>
    intro i j
    rw [wsGridAt_step, PE.process_ws _ _ rfl rfl]
    simpa using ih i j

/-- The weight actually used at edge `s` (freshly latched at edge `0`, the
held register afterwards) is always the gated preload value. -/
theorem wsGridAt_weight (k1 k2 k3 : ℕ) (At Wt : ℕ → ℕ → ℚ) (s i j : ℕ) :
    (if decide (s = 0) = true then wsPreloadData k2 k3 Wt i j
      else ((wsGridAt k1 k2 k3 At Wt s) i j).preloadBuffer)
      = wsPreloadData k2 k3 Wt i j := by
  cases s with
  | zero => simp
  | succ ss => simp [wsGridAt_preload]

/-- The `in_left` value PE `(i, j)` observes at edge `s` is the
left-boundary signal delayed by `j` edges. -/
theorem wsGridAt_leftIn (k1 k2 k3 : ℕ) (At Wt : ℕ → ℕ → ℚ) (s i j : ℕ) :
    (if j = 0 then wsLeftSig k1 k2 At s i
      else ((wsGridAt k1 k2 k3 At Wt s) i (j - 1)).rightOut)
      = wsLeftSig k1 k2 At (s - j) i := by
  cases j with
  | zero => rfl
  | succ jj =>
    cases s with
    | zero =>
      simp [wsGridAt, initGrid, wsLeftSig]
    | succ ss =>
      simp only [Nat.succ_ne_zero, if_false, Nat.succ_sub_succ]
      exact wsGridAt_rightOut k1 k2 k3 At Wt ss i jj

/-- The `out_bottom` register of PE `(i, j)` after edge `s`: the skewed dot
product of the column's weights with the left-boundary feed history. -/
theorem wsGridAt_bottomOut (k1 k2 k3 : ℕ) (At Wt : ℕ → ℕ → ℚ) :
    ∀ i s j, ((wsGridAt k1 k2 k3 At Wt (s + 1)) i j).bottomOut
      = ∑ d ∈ Finset.range (i + 1),
          wsLeftSig k1 k2 At (s - d - j) (i - d)
            * wsPreloadData k2 k3 Wt (i - d) j := by
  intro i
  induction i with
  | zero =>
    intro s j
    rw [wsGridAt_step, PE.process_ws _ _ rfl rfl]
    simp only [if_pos rfl]
    rw [wsGridAt_leftIn, wsGridAt_weight]
    simp
  | succ ii ih =>
    intro s j
    rw [wsGridAt_step, PE.process_ws _ _ rfl rfl]
    simp only [Nat.succ_ne_zero, if_false, Nat.add_sub_cancel]
    rw [wsGridAt_leftIn, wsGridAt_weight]
    have htop : ((wsGridAt k1 k2 k3 At Wt s) ii j).bottomOut
        = ∑ d ∈ Finset.range (ii + 1),
            wsLeftSig k1 k2 At (s - 1 - d - j) (ii - d)
              * wsPreloadData k2 k3 Wt (ii - d) j := by
      cases s with
      | zero =>
        have hz : ∀ d ∈ Finset.range (ii + 1),
            wsLeftSig k1 k2 At (0 - 1 - d - j) (ii - d)
              * wsPreloadData k2 k3 Wt (ii - d) j = 0 := by
          intro d _
          have h0 : (0 : ℕ) - 1 - d - j = 0 := by omega
          rw [h0]
          simp [wsLeftSig]
        rw [Finset.sum_eq_zero hz]
        simp [wsGridAt, initGrid]
      | succ ss =>
        rw [ih ss j]
        simp
    rw [htop]
    conv_rhs => rw [Finset.sum_range_succ']
    have hterm : ∀ d ∈ Finset.range (ii + 1),
        wsLeftSig k1 k2 At (s - (d + 1) - j) (ii + 1 - (d + 1))
          * wsPreloadData k2 k3 Wt (ii + 1 - (d + 1)) j
        = wsLeftSig k1 k2 At (s - 1 - d - j) (ii - d)
          * wsPreloadData k2 k3 Wt (ii - d) j := by
      intro d _
      have h1 : s - (d + 1) - j = s - 1 - d - j := by omega
      have h2 : ii + 1 - (d + 1) = ii - d := by omega
      rw [h1, h2]
    rw [Finset.sum_congr rfl hterm]
    simp only [Nat.sub_zero]
    ring

/-- The value the controller reads at loop cycle `c = r + M + j + 1` is the
row-`r` partial dot product against column `j`'s preloaded weights: the skew
compensation `r_out = clk_cycle - M - j - 1` attributes each observed value
to the correct logical output row. -/
theorem wsRead_eq (M k1 k2 k3 : ℕ) (At Wt : ℕ → ℕ → ℚ) (hM : 0 < M)
    (r j : ℕ) :
    wsRead M k1 k2 k3 At Wt (r + M + j + 1) j
      = ∑ i ∈ Finset.range M,
          (if r < k1 ∧ i < k2 then At r i else 0)
            * wsPreloadData k2 k3 Wt i j := by
  unfold wsRead
  have hs : r + M + j + 1 = (r + M + j) + 1 := rfl
  rw [hs, wsGridAt_bottomOut]
  have hM1 : M - 1 + 1 = M := by omega
  rw [hM1]
  rw [← Finset.sum_range_reflect
    (fun i => (if r < k1 ∧ i < k2 then At r i else 0)
      * wsPreloadData k2 k3 Wt i j) M]
  refine Finset.sum_congr rfl ?_
  intro d hd
  have hdM : d < M := Finset.mem_range.mp hd
  have h1 : r + M + j - d - j = r + M - d := by omega
  rw [h1]
  have h2 : r + M - d ≠ 0 := by omega
  rw [wsLeftSig, if_neg h2]
  rw [wsFeedA]
  have h3 : r + M - d - 1 - (M - 1 - d) = r := by omega
  have h4 : M - 1 - d ≤ r + M - d - 1 := by omega
  rw [h3]
  have h5 : (M - 1 - d ≤ r + M - d - 1 ∧ r < k1 ∧ M - 1 - d < k2)
      ↔ (r < k1 ∧ M - 1 - d < k2) := by
    constructor
    · rintro ⟨_, h⟩; exact h
    · intro h; exact ⟨h4, h⟩
  simp only [h5]

/-- Pointwise effect of one inner drain-write loop over the columns: each
column `j` updates only the cell `(tgt j, j)`, so the cells written by
distinct iterations are distinct and the loop's effect is cellwise. -/
theorem foldl_colUpdate (cond : ℕ → Prop) [DecidablePred cond]
    (tgt : ℕ → ℕ) (v : ℕ → ℚ) :
    ∀ (n : ℕ) (C : ℕ → ℕ → ℚ) (r j : ℕ),
      ((List.range n).foldl
        (fun C j' =>
          if cond j' then
            matUpdate C (tgt j') j' (C (tgt j') j' + v j')
          else C)
        C) r j
      = if j < n ∧ cond j ∧ r = tgt j then C r j + v j else C r j := by
  intro n
  induction n with
  | zero =>
    intro C r j
    simp
  | succ nn ih =>
    intro C r j
    rw [List.range_succ, List.foldl_append]
    simp only [List.foldl_cons, List.foldl_nil]
    by_cases hcn : cond nn
    · rw [if_pos hcn]
      simp only [matUpdate, ih, lt_self_iff_false, false_and, if_false]
      by_cases hjn : j = nn
      · by_cases hr : r = tgt nn
        · rw [if_pos ⟨hr, hjn⟩, if_pos (by exact ⟨by omega, by rwa [hjn], by rw [hjn, ← hr]⟩)]
          rw [hjn, hr]
        · rw [if_neg (by tauto)]
          rw [if_neg (by rw [hjn]; rintro ⟨h1, h2, h3⟩; omega),
            if_neg (by rintro ⟨h1, h2, h3⟩; rw [hjn] at h3; exact hr h3)]
      · rw [if_neg (by tauto)]
        refine if_congr ?_ rfl rfl
        constructor
        · rintro ⟨h1, h2, h3⟩; exact ⟨by omega, h2, h3⟩
        · rintro ⟨h1, h2, h3⟩; exact ⟨by omega, h2, h3⟩
    · rw [if_neg hcn, ih]
      by_cases hjn : j = nn
      · rw [if_neg (by rw [hjn]; rintro ⟨h1, _, _⟩; omega),
          if_neg (by rw [hjn]; rintro ⟨_, h2, _⟩; exact hcn h2)]
      · refine if_congr ?_ rfl rfl
        constructor
        · rintro ⟨h1, h2, h3⟩; exact ⟨by omega, h2, h3⟩
        · rintro ⟨h1, h2, h3⟩; exact ⟨by omega, h2, h3⟩

/-- Pointwise effect of one WS loop cycle's drain writes. -/
theorem wsCycleWrites_apply (M N k1 k2 k3 : ℕ) (At Wt : ℕ → ℕ → ℚ) (c : ℕ)
    (C : ℕ → ℕ → ℚ) (r j : ℕ) :
    wsCycleWrites M N k1 k2 k3 At Wt c C r j
      = if j < N ∧ (M + j + 1 ≤ c ∧ c - M - j - 1 < k1 ∧ j < k3) ∧
            r = c - M - j - 1 then
          C r j + wsRead M k1 k2 k3 At Wt c j
        else C r j := by
  exact foldl_colUpdate
    (fun j' => M + j' + 1 ≤ c ∧ c - M - j' - 1 < k1 ∧ j' < k3)
    (fun j' => c - M - j' - 1) (fun j' => wsRead M k1 k2 k3 At Wt c j') N C r j

/-- Pointwise characterization of the C tile buffer after the first `n` WS
loop cycles: cell `(r, j)` is written exactly once, at cycle
`r + M + j + 1`, and accumulates (`+=`) the observed drain value. -/
theorem wsCAfter_apply (M N k1 k2 k3 : ℕ) (At Wt : ℕ → ℕ → ℚ)
    (C0 : ℕ → ℕ → ℚ) :
    ∀ n r j, wsCAfter M N k1 k2 k3 At Wt C0 n r j
      = if j < N ∧ j < k3 ∧ r < k1 ∧ r + M + j + 1 < n then
          C0 r j + wsRead M k1 k2 k3 At Wt (r + M + j + 1) j
        else C0 r j := by
  intro n
  induction n with
  | zero =>
    intro r j
    simp [wsCAfter]
  | succ nn ih =>
    intro r j
    have hstep : wsCAfter M N k1 k2 k3 At Wt C0 (nn + 1)
        = wsCycleWrites M N k1 k2 k3 At Wt nn
            (wsCAfter M N k1 k2 k3 At Wt C0 nn) := by
      unfold wsCAfter
      rw [List.range_succ, List.foldl_append]
      simp
    rw [hstep, wsCycleWrites_apply, ih]
    by_cases hw : j < N ∧ (M + j + 1 ≤ nn ∧ nn - M - j - 1 < k1 ∧ j < k3) ∧
        r = nn - M - j - 1
    · obtain ⟨h1, ⟨h2, h3, h4⟩, h5⟩ := hw
      have hc : r + M + j + 1 = nn := by omega
      rw [if_pos ⟨h1, ⟨h2, h3, h4⟩, h5⟩]
      rw [if_neg (by rintro ⟨_, _, _, hlt⟩; omega)]
      rw [if_pos ⟨h1, h4, by omega, by omega⟩, hc]
    · rw [if_neg hw]
      refine if_congr ?_ rfl rfl
      constructor
      · rintro ⟨h1, h2, h3, h4⟩
        exact ⟨h1, h2, h3, by omega⟩
      · rintro ⟨h1, h2, h3, h4⟩
        have hne : r + M + j + 1 ≠ nn := by
          intro heq
          exact hw ⟨h1, ⟨by omega, by omega, h2⟩, by omega⟩
        exact ⟨h1, h2, h3, by omega⟩

/-- Full characterization of one WS tile job's effect on the C tile buffer:
every in-range cell `(r, j)` receives exactly one accumulation, of the gated
partial product `Σ_i A[r][i] · W[i][j]`; out-of-range cells are untouched. -/
theorem wsTile_spec (M N k1 k2 k3 : ℕ) (At Wt : ℕ → ℕ → ℚ)
    (C0 : ℕ → ℕ → ℚ) (hM : 0 < M) (r j : ℕ) :
    wsTile M N k1 k2 k3 At Wt C0 r j
      = if r < k1 ∧ j < N ∧ j < k3 then
          C0 r j + ∑ i ∈ Finset.range M,
            (if i < k2 then At r i * Wt i j else 0)
        else C0 r j := by
  unfold wsTile
  rw [wsCAfter_apply]
  by_cases h : r < k1 ∧ j < N ∧ j < k3
  · obtain ⟨h1, h2, h3⟩ := h
    rw [if_pos ⟨h2, h3, h1, by omega⟩, if_pos ⟨h1, h2, h3⟩,
      wsRead_eq M k1 k2 k3 At Wt hM]
    congr 1
    refine Finset.sum_congr rfl ?_
    intro i _
    rw [wsPreloadData]
    by_cases hik : i < k2
    · rw [if_pos ⟨h1, hik⟩, if_pos ⟨hik, h3⟩, if_pos hik]
    · rw [if_neg (by tauto), if_neg hik, zero_mul]
  · rw [if_neg (by rintro ⟨ha, hb, hc, _⟩; exact h ⟨hc, ha, hb⟩),
      if_neg h]

/-! # Lemmas: output-stationary grid behaviour -/

/-- One-step unfolding of the OS grid history during the accumulate phase
(`preload_valid` still observed low). -/
theorem osGridAt_step_acc (M N k1 k2 k3 : ℕ) (At Wt : ℕ → ℕ → ℚ) (s i j : ℕ)
    (hs : s ≤ osStreamCycles M N k2) :
    (osGridAt M N k1 k2 k3 At Wt (s + 1)) i j
      = PE.process ((osGridAt M N k1 k2 k3 At Wt s) i j)
          { reset := false
            outputStationary := true
            preloadValid := false
            preloadData := 0
            inTop := if i = 0 then osTopSig k2 k3 Wt s j
              else ((osGridAt M N k1 k2 k3 At Wt s) (i - 1) j).bottomOut
            inLeft := if j = 0 then osLeftSig k1 k2 At s i
              else ((osGridAt M N k1 k2 k3 At Wt s) i (j - 1)).rightOut } := by
  show (gridStep (osGridIn M N k1 k2 k3 At Wt s)
      (osGridAt M N k1 k2 k3 At Wt s)) i j = _
  rw [osGridIn, if_pos hs]
  rfl

/-- One-step unfolding of the OS grid history during the drain phase
(`preload_valid` observed high, zero boundary inputs). -/
theorem osGridAt_step_drain (M N k1 k2 k3 : ℕ) (At Wt : ℕ → ℕ → ℚ)
    (s i j : ℕ) (hs : ¬s ≤ osStreamCycles M N k2) :
    (osGridAt M N k1 k2 k3 At Wt (s + 1)) i j
      = PE.process ((osGridAt M N k1 k2 k3 At Wt s) i j)
          { reset := false
            outputStationary := true
            preloadValid := true
            preloadData := 0
            inTop := if i = 0 then 0
              else ((osGridAt M N k1 k2 k3 At Wt s) (i - 1) j).bottomOut
            inLeft := if j = 0 then 0
              else ((osGridAt M N k1 k2 k3 At Wt s) i (j - 1)).rightOut } := by
  show (gridStep (osGridIn M N k1 k2 k3 At Wt s)
      (osGridAt M N k1 k2 k3 At Wt s)) i j = _
  rw [osGridIn, if_neg hs]
  rfl

/-- OS accumulate-mode field values of one PE step. -/
theorem PE.process_os_acc (s : PEState) (x : PEIn) (hr : x.reset = false)
    (ho : x.outputStationary = true) (hp : x.preloadValid = false) :
    PE.process s x
      = { preloadBuffer := s.preloadBuffer
          accumulator := s.accumulator + x.inTop * x.inLeft
          rightOut := x.inLeft
          bottomOut := x.inTop
          drainSent := false } := by
  simp [PE.process, hr, ho, hp]

/-- OS drain-mode field values of one PE step, first drain tick. -/
theorem PE.process_os_drain_first (s : PEState) (x : PEIn)
    (hr : x.reset = false) (ho : x.outputStationary = true)
    (hp : x.preloadValid = true) (hd : s.drainSent = false) :
    PE.process s x
      = { s with
          bottomOut := s.accumulator
          drainSent := true
          rightOut := 0 } := by
  simp [PE.process, hr, ho, hp, hd]

/-- OS drain-mode field values of one PE step, later drain ticks. -/
theorem PE.process_os_drain_pass (s : PEState) (x : PEIn)
    (hr : x.reset = false) (ho : x.outputStationary = true)
    (hp : x.preloadValid = true) (hd : s.drainSent = true) :
    PE.process s x = { s with bottomOut := x.inTop, rightOut := 0 } := by
  simp [PE.process, hr, ho, hp, hd]

/-- During the accumulate phase, `out_right` registers forward the
left-boundary signal with one edge of delay per column. -/
theorem osGridAt_rightOut (M N k1 k2 k3 : ℕ) (At Wt : ℕ → ℕ → ℚ) :
    ∀ s, s ≤ osStreamCycles M N k2 → ∀ i j,
      ((osGridAt M N k1 k2 k3 At Wt (s + 1)) i j).rightOut
        = osLeftSig k1 k2 At (s - j) i := by
  intro s
  induction s with
  | zero =>
    intro hs i j
    rw [osGridAt_step_acc M N k1 k2 k3 At Wt 0 i j hs,
      PE.process_os_acc _ _ rfl rfl rfl]
    cases j with
    | zero => rfl
    | succ jj => simp [osGridAt, initGrid, osLeftSig]
  | succ ss ih =>
    intro hs i j
    rw [osGridAt_step_acc M N k1 k2 k3 At Wt (ss + 1) i j hs,
      PE.process_os_acc _ _ rfl rfl rfl]
    cases j with
    | zero => rfl
    | succ jj =>
      simp only [Nat.succ_ne_zero, if_false, Nat.succ_sub_succ]
      exact ih (by omega) i jj

/-- During the accumulate phase, `out_bottom` registers forward the
top-boundary signal with one edge of delay per row. -/
theorem osGridAt_bottomOut (M N k1 k2 k3 : ℕ) (At Wt : ℕ → ℕ → ℚ) :
    ∀ s, s ≤ osStreamCycles M N k2 → ∀ i j,
      ((osGridAt M N k1 k2 k3 At Wt (s + 1)) i j).bottomOut
        = osTopSig k2 k3 Wt (s - i) j := by
  intro s
  induction s with
  | zero =>
    intro hs i j
    rw [osGridAt_step_acc M N k1 k2 k3 At Wt 0 i j hs,
      PE.process_os_acc _ _ rfl rfl rfl]
    cases i with
    | zero => rfl
    | succ ii => simp [osGridAt, initGrid, osTopSig]
  | succ ss ih =>
    intro hs i j
    rw [osGridAt_step_acc M N k1 k2 k3 At Wt (ss + 1) i j hs,
      PE.process_os_acc _ _ rfl rfl rfl]
    cases i with
    | zero => rfl
    | succ ii =>
      simp only [Nat.succ_ne_zero, if_false, Nat.succ_sub_succ]
      exact ih (by omega) ii j

/-- The `in_top` value PE `(i, j)` observes at accumulate edge `s`. -/
theorem osGridAt_topIn (M N k1 k2 k3 : ℕ) (At Wt : ℕ → ℕ → ℚ) (s i j : ℕ)
    (hs : s ≤ osStreamCycles M N k2) :
    (if i = 0 then osTopSig k2 k3 Wt s j
      else ((osGridAt M N k1 k2 k3 At Wt s) (i - 1) j).bottomOut)
      = osTopSig k2 k3 Wt (s - i) j := by
  cases i with
  | zero => rfl
  | succ ii =>
    cases s with
    | zero => simp [osGridAt, initGrid, osTopSig]
    | succ ss =>
      simp only [Nat.succ_ne_zero, if_false, Nat.succ_sub_succ]
      exact osGridAt_bottomOut M N k1 k2 k3 At Wt ss (by omega) ii j

/-- The `in_left` value PE `(i, j)` observes at accumulate edge `s`. -/
theorem osGridAt_leftIn (M N k1 k2 k3 : ℕ) (At Wt : ℕ → ℕ → ℚ) (s i j : ℕ)
    (hs : s ≤ osStreamCycles M N k2) :
    (if j = 0 then osLeftSig k1 k2 At s i
      else ((osGridAt M N k1 k2 k3 At Wt s) i (j - 1)).rightOut)
      = osLeftSig k1 k2 At (s - j) i := by
  cases j with
  | zero => rfl
  | succ jj =>
    cases s with
    | zero => simp [osGridAt, initGrid, osLeftSig]
    | succ ss =>
      simp only [Nat.succ_ne_zero, if_false, Nat.succ_sub_succ]
      exact osGridAt_rightOut M N k1 k2 k3 At Wt ss (by omega) i jj

/-- Through the accumulate phase no PE has its drain flag set. -/
theorem osGridAt_drainSent (M N k1 k2 k3 : ℕ) (At Wt : ℕ → ℕ → ℚ) :
    ∀ s, s ≤ osStreamCycles M N k2 + 1 → ∀ i j,
      ((osGridAt M N k1 k2 k3 At Wt s) i j).drainSent = false := by
  intro s
  cases s with
  | zero => intro _ i j; rfl
  | succ ss =>
    intro hs i j
    rw [osGridAt_step_acc M N k1 k2 k3 At Wt ss i j (by omega),
      PE.process_os_acc _ _ rfl rfl rfl]

/-- The accumulator of PE `(i, j)` after `s` accumulate edges is the sum of
the products of the delayed boundary signals. -/
theorem osGridAt_acc (M N k1 k2 k3 : ℕ) (At Wt : ℕ → ℕ → ℚ) :
    ∀ s, s ≤ osStreamCycles M N k2 + 1 → ∀ i j,
      ((osGridAt M N k1 k2 k3 At Wt s) i j).accumulator
        = ∑ u ∈ Finset.range s,
            osTopSig k2 k3 Wt (u - i) j * osLeftSig k1 k2 At (u - j) i := by
  intro s
  induction s with
  | zero => intro _ i j; simp; rfl
  | succ ss ih =>
    intro hs i j
    rw [osGridAt_step_acc M N k1 k2 k3 At Wt ss i j (by omega),
      PE.process_os_acc _ _ rfl rfl rfl]
    show ((osGridAt M N k1 k2 k3 At Wt ss) i j).accumulator
        + (if i = 0 then osTopSig k2 k3 Wt ss j
            else ((osGridAt M N k1 k2 k3 At Wt ss) (i - 1) j).bottomOut)
          * (if j = 0 then osLeftSig k1 k2 At ss i
            else ((osGridAt M N k1 k2 k3 At Wt ss) i (j - 1)).rightOut) = _
    rw [osGridAt_topIn M N k1 k2 k3 At Wt ss i j (by omega),
      osGridAt_leftIn M N k1 k2 k3 At Wt ss i j (by omega),
      ih (by omega) i j, Finset.sum_range_succ]

/-- At the end of the accumulate phase the accumulator of PE `(i, j)` holds
exactly the gated dot product `Σ_k A[i][k] · W[k][j]`: the skewed feeds
`k = c - i` (left) and `k = c - j` (top) meet in PE `(i, j)` with matching
`k` indices, and `stream_cycles = k2 + M + N + 1` covers every product. -/
theorem osAccv_eq (M N k1 k2 k3 : ℕ) (At Wt : ℕ → ℕ → ℚ) (i j : ℕ)
    (hi : i < M) (hj : j < N) :
    osAccv M N k1 k2 k3 At Wt i j
      = if i < k1 ∧ j < k3 then
          ∑ k ∈ Finset.range k2, At i k * Wt k j
        else 0 := by
  unfold osAccv
  rw [osGridAt_acc M N k1 k2 k3 At Wt (osStreamCycles M N k2 + 1) (by omega)]
  have hterm : ∀ u,
      osTopSig k2 k3 Wt (u - i) j * osLeftSig k1 k2 At (u - j) i
        = if u ∈ Finset.Ico (i + j + 1) (i + j + 1 + k2) then
            (if i < k1 ∧ j < k3 then At i (u - i - j - 1) * Wt (u - i - j - 1) j
              else 0)
          else 0 := by
    intro u
    simp only [Finset.mem_Ico]
    unfold osTopSig osLeftSig osFeedT osFeedL
    by_cases hu : i + j + 1 ≤ u ∧ u < i + j + 1 + k2
    · obtain ⟨hu1, hu2⟩ := hu
      rw [if_neg (show ¬(u - i = 0) by omega),
        if_neg (show ¬(u - j = 0) by omega)]
      by_cases hk : i < k1 ∧ j < k3
      · have e1 : u - i - 1 - j = u - i - j - 1 := by omega
        have e2 : u - j - 1 - i = u - i - j - 1 := by omega
        rw [if_pos (show j ≤ u - i - 1 ∧ u - i - 1 - j < k2 ∧ j < k3 from
            ⟨by omega, by omega, hk.2⟩),
          if_pos (show i ≤ u - j - 1 ∧ u - j - 1 - i < k2 ∧ i < k1 from
            ⟨by omega, by omega, hk.1⟩),
          if_pos (show i + j + 1 ≤ u ∧ u < i + j + 1 + k2 from ⟨hu1, hu2⟩),
          if_pos hk, e1, e2]
        ring
      · rw [if_pos (show i + j + 1 ≤ u ∧ u < i + j + 1 + k2 from ⟨hu1, hu2⟩),
          if_neg hk]
        rcases Decidable.not_and_iff_or_not.mp hk with h | h
        · rw [if_neg (show ¬(i ≤ u - j - 1 ∧ u - j - 1 - i < k2 ∧ i < k1) from
            fun hh => h hh.2.2), mul_zero]
        · rw [if_neg (show ¬(j ≤ u - i - 1 ∧ u - i - 1 - j < k2 ∧ j < k3) from
            fun hh => h hh.2.2), zero_mul]
    · rw [if_neg hu]
      rcases Nat.lt_or_ge u (i + j + 1) with h | h
      · rcases Nat.lt_or_ge u (i + 1) with h2 | h2
        · rw [show u - i = 0 from by omega, if_pos rfl, zero_mul]
        · rw [if_neg (show ¬(u - i = 0) by omega),
            if_neg (show ¬(j ≤ u - i - 1 ∧ u - i - 1 - j < k2 ∧ j < k3) from
              fun hh => by omega),
            zero_mul]
      · rw [if_neg (show ¬(u - i = 0) by omega),
          if_neg (show ¬(j ≤ u - i - 1 ∧ u - i - 1 - j < k2 ∧ j < k3) from
            fun hh => by
              have := hh.1
              have := hh.2.1
              omega),
          zero_mul]
  rw [Finset.sum_congr rfl (fun u _ => hterm u)]
  rw [Finset.sum_ite_mem]
  have hsub : Finset.Ico (i + j + 1) (i + j + 1 + k2)
      ⊆ Finset.range (osStreamCycles M N k2 + 1) := by
    intro u hu
    rw [Finset.mem_Ico] at hu
    rw [Finset.mem_range]
    unfold osStreamCycles
    omega
  rw [Finset.inter_eq_right.mpr hsub]
  by_cases hk : i < k1 ∧ j < k3
  · rw [Finset.sum_Ico_eq_sum_range]
    have hlen : i + j + 1 + k2 - (i + j + 1) = k2 := by omega
    rw [hlen, if_pos hk]
    refine Finset.sum_congr rfl ?_
    intro k _
    rw [if_pos hk]
    have e : i + j + 1 + k - i - j - 1 = k := by omega
    rw [e]
  · rw [if_neg hk]
    refine Finset.sum_eq_zero ?_
    intro u _
    rw [if_neg hk]

/-- Drain propagation: at drain edge `u + 1` (edges
`stream_cycles + 1 + u + 1` overall... stated over the grid history), each
PE's `out_bottom` register holds the accumulator of the PE `u` rows above
it, and its drain flag is set.  Row 0's pass-through input is the zeroed
top boundary. -/
theorem osGridAt_drain (M N k1 k2 k3 : ℕ) (At Wt : ℕ → ℕ → ℚ) :
    ∀ u i j,
      (((osGridAt M N k1 k2 k3 At Wt (osStreamCycles M N k2 + 1 + (u + 1))) i j).bottomOut
        = if u ≤ i then osAccv M N k1 k2 k3 At Wt (i - u) j else 0)
      ∧ ((osGridAt M N k1 k2 k3 At Wt (osStreamCycles M N k2 + 1 + (u + 1))) i j).drainSent
        = true := by
  intro u
  induction u with
  | zero =>
    intro i j
    rw [show osStreamCycles M N k2 + 1 + (0 + 1)
        = (osStreamCycles M N k2 + 1) + 1 from rfl]
    rw [osGridAt_step_drain M N k1 k2 k3 At Wt (osStreamCycles M N k2 + 1) i j
        (by omega),
      PE.process_os_drain_first _ _ rfl rfl rfl
        (osGridAt_drainSent M N k1 k2 k3 At Wt (osStreamCycles M N k2 + 1)
          (by omega) i j)]
    constructor
    · simp [osAccv]
    · rfl
  | succ uu ih =>
    intro i j
    rw [show osStreamCycles M N k2 + 1 + (uu + 1 + 1)
        = (osStreamCycles M N k2 + 1 + (uu + 1)) + 1 from by omega]
    rw [osGridAt_step_drain M N k1 k2 k3 At Wt
        (osStreamCycles M N k2 + 1 + (uu + 1)) i j (by unfold osStreamCycles; omega),
      PE.process_os_drain_pass _ _ rfl rfl rfl (ih i j).2]
    refine ⟨?_, (ih i j).2⟩
    cases i with
    | zero =>
      rw [if_neg (show ¬(uu + 1 ≤ 0) by omega)]
      simp
    | succ ii =>
      simp only [Nat.succ_ne_zero, if_false, Nat.add_sub_cancel,
        Nat.succ_sub_succ, Nat.add_le_add_iff_right]
      exact (ih ii j).1

/-- The values the controller's drain loop observes: read `0` sees row
`M - 1`'s accumulator, but every later read `t` sees the value written one
edge earlier, which is the accumulator of row `M - t` — not row
`M - 1 - t`. -/
theorem osDrainRead_eq (M N k1 k2 k3 : ℕ) (At Wt : ℕ → ℕ → ℚ) (hM : 0 < M) :
    ∀ t j, t < M →
      osDrainRead M N k1 k2 k3 At Wt t j
        = if t = 0 then osAccv M N k1 k2 k3 At Wt (M - 1) j
          else osAccv M N k1 k2 k3 At Wt (M - t) j := by
  intro t j ht
  unfold osDrainRead
  cases t with
  | zero =>
    rw [if_pos rfl, if_pos rfl]
    rw [show osStreamCycles M N k2 + 2 = osStreamCycles M N k2 + 1 + (0 + 1)
      from rfl]
    rw [(osGridAt_drain M N k1 k2 k3 At Wt 0 (M - 1) j).1, if_pos (by omega)]
    rw [show M - 1 - 0 = M - 1 from rfl]
  | succ tt =>
    rw [if_neg (by omega), if_neg (by omega)]
    rw [show osStreamCycles M N k2 + 1 + (tt + 1)
        = osStreamCycles M N k2 + 1 + (tt + 1) from rfl]
    rw [(osGridAt_drain M N k1 k2 k3 At Wt tt (M - 1) j).1,
      if_pos (by omega)]
    rw [show M - 1 - tt = M - (tt + 1) from by omega]

/-- Pointwise characterization of the prefix of the OS drain-write loop:
drain iteration `t` writes only row `M - 1 - t`, so cell `(r, j)` is
written exactly once, by iteration `M - 1 - r`. -/
theorem osTile_fold (M N k1 k2 k3 : ℕ) (At Wt : ℕ → ℕ → ℚ)
    (C0 : ℕ → ℕ → ℚ) :
    ∀ m, m ≤ M → ∀ r j,
      ((List.range m).foldl
        (fun C t =>
          (List.range N).foldl
            (fun C j =>
              if M - 1 - t < k1 ∧ j < k3 then
                matUpdate C (M - 1 - t) j
                  (C (M - 1 - t) j + osDrainRead M N k1 k2 k3 At Wt t j)
              else C)
            C)
        C0) r j
      = if r < M ∧ M - 1 - r < m ∧ r < k1 ∧ j < N ∧ j < k3 then
          C0 r j + osDrainRead M N k1 k2 k3 At Wt (M - 1 - r) j
        else C0 r j := by
  intro m
  induction m with
  | zero =>
    intro _ r j
    simp
  | succ mm ih =>
    intro hm r j
    rw [List.range_succ, List.foldl_append]
    simp only [List.foldl_cons, List.foldl_nil]
    have hinner : ∀ (C : ℕ → ℕ → ℚ) (r' j' : ℕ),
        ((List.range N).foldl
          (fun C j =>
            if M - 1 - mm < k1 ∧ j < k3 then
              matUpdate C (M - 1 - mm) j
                (C (M - 1 - mm) j + osDrainRead M N k1 k2 k3 At Wt mm j)
            else C)
          C) r' j'
        = if j' < N ∧ (M - 1 - mm < k1 ∧ j' < k3) ∧ r' = M - 1 - mm then
            C r' j' + osDrainRead M N k1 k2 k3 At Wt mm j'
          else C r' j' := by
      intro C r' j'
      exact foldl_colUpdate (fun j' => M - 1 - mm < k1 ∧ j' < k3)
        (fun _ => M - 1 - mm) (fun j' => osDrainRead M N k1 k2 k3 At Wt mm j')
        N C r' j'
    rw [hinner]
    by_cases hw : j < N ∧ (M - 1 - mm < k1 ∧ j < k3) ∧ r = M - 1 - mm
    · obtain ⟨h1, ⟨h2, h3⟩, h4⟩ := hw
      rw [if_pos ⟨h1, ⟨h2, h3⟩, h4⟩]
      rw [ih (by omega), if_neg (by rintro ⟨_, hlt, _⟩; omega)]
      rw [if_pos ⟨by omega, by omega, by omega, h1, h3⟩]
      rw [show M - 1 - r = mm from by omega]
    · rw [if_neg hw, ih (by omega)]
      refine if_congr ?_ rfl rfl
      constructor
      · rintro ⟨h1, h2, h3, h4, h5⟩
        exact ⟨h1, by omega, h3, h4, h5⟩
      · rintro ⟨h1, h2, h3, h4, h5⟩
        refine ⟨h1, ?_, h3, h4, h5⟩
        rcases Nat.lt_or_ge (M - 1 - r) mm with h | h
        · exact h
        · exfalso
          exact hw ⟨h4, ⟨by omega, h5⟩, by omega⟩

/-- Full characterization of one OS tile job's effect on the C tile buffer:
each in-range cell `(r, j)` receives exactly one accumulation (`+=`); row
`M - 1` receives its own accumulator, but every other row `r` receives the
accumulator of row `r + 1` (the drain reads lag the drained wavefront by
one edge after the first read). -/
theorem osTile_spec (M N k1 k2 k3 : ℕ) (At Wt : ℕ → ℕ → ℚ)
    (C0 : ℕ → ℕ → ℚ) (hM : 0 < M) (r j : ℕ) :
    osTile M N k1 k2 k3 At Wt C0 r j
      = if r < M ∧ r < k1 ∧ j < N ∧ j < k3 then
          C0 r j + (if r = M - 1 then osAccv M N k1 k2 k3 At Wt (M - 1) j
            else osAccv M N k1 k2 k3 At Wt (r + 1) j)
        else C0 r j := by
  unfold osTile
  rw [osTile_fold M N k1 k2 k3 At Wt C0 M (le_refl M)]
  by_cases h : r < M ∧ r < k1 ∧ j < N ∧ j < k3
  · obtain ⟨h1, h2, h3, h4⟩ := h
    rw [if_pos ⟨h1, by omega, h2, h3, h4⟩, if_pos ⟨h1, h2, h3, h4⟩]
    rw [osDrainRead_eq M N k1 k2 k3 At Wt hM (M - 1 - r) j (by omega)]
    by_cases hr : r = M - 1
    · rw [if_pos (show M - 1 - r = 0 from by omega), if_pos hr]
    · rw [if_neg (show ¬(M - 1 - r = 0) from by omega), if_neg hr]
      rw [show M - (M - 1 - r) = r + 1 from by omega]
  · rw [if_neg (by rintro ⟨h1, _, h2, h3, h4⟩; exact h ⟨h1, h2, h3, h4⟩),
      if_neg h]

/-! # Claim theorems -/

/-- Claim C4: for every tick in WS mode with reset deasserted, the PE
latches `weight_register = preload_data` when `preload_valid` is asserted
(and keeps the old weight otherwise), always computes
`accumulator = in_left * weight_register + in_top` (with the just-latched
weight), and drives `out_bottom = accumulator` and `out_right = in_left`. -/
theorem claim_C4 (s : PEState) (x : PEIn) (hr : x.reset = false)
    (ho : x.outputStationary = false) :
    (PE.process s x).preloadBuffer
        = (if x.preloadValid then x.preloadData else s.preloadBuffer)
    ∧ (PE.process s x).accumulator
        = x.inLeft * (PE.process s x).preloadBuffer + x.inTop
    ∧ (PE.process s x).bottomOut = (PE.process s x).accumulator
    ∧ (PE.process s x).rightOut = x.inLeft := by
  rw [PE.process_ws s x hr ho]
  exact ⟨rfl, rfl, rfl, rfl⟩

/-- Witness for C4 at a concrete input. -/
theorem claim_C4_witness :
    (({ reset := false, outputStationary := false, preloadValid := true,
        preloadData := 3, inTop := 5, inLeft := 2 } : PEIn).reset = false)
    ∧ (PE.process
        { preloadBuffer := 7, accumulator := 0, rightOut := 0, bottomOut := 0,
          drainSent := false }
        { reset := false, outputStationary := false, preloadValid := true,
          preloadData := 3, inTop := 5, inLeft := 2 }).rightOut = 2 := by
  refine ⟨rfl, ?_⟩
  exact (claim_C4
    { preloadBuffer := 7, accumulator := 0, rightOut := 0, bottomOut := 0,
      drainSent := false }
    { reset := false, outputStationary := false, preloadValid := true,
      preloadData := 3, inTop := 5, inLeft := 2 } rfl rfl).2.2.2

/-- Claim C5: in OS mode with `preload_valid` asserted (drain phase), a PE
whose drain flag is clear emits its accumulator on `out_bottom` and sets the
flag; on every later such tick it passes `in_top` through; `out_right = 0`
in either case; and the flag is cleared again by any accumulate-phase tick
and by reset. -/
theorem claim_C5 (s : PEState) (x : PEIn) (hr : x.reset = false)
    (ho : x.outputStationary = true) :
    (x.preloadValid = true →
      ((s.drainSent = false →
          (PE.process s x).bottomOut = s.accumulator
          ∧ (PE.process s x).drainSent = true)
        ∧ (s.drainSent = true → (PE.process s x).bottomOut = x.inTop)
        ∧ (PE.process s x).rightOut = 0))
    ∧ (x.preloadValid = false → (PE.process s x).drainSent = false)
    ∧ (∀ y : PEIn, y.reset = true → (PE.process s y).drainSent = false) := by
  refine ⟨?_, ?_, ?_⟩
  · intro hp
    refine ⟨?_, ?_, ?_⟩
    · intro hd
      rw [PE.process_os_drain_first s x hr ho hp hd]
      exact ⟨rfl, rfl⟩
    · intro hd
      rw [PE.process_os_drain_pass s x hr ho hp hd]
    · by_cases hd : s.drainSent = true
      · rw [PE.process_os_drain_pass s x hr ho hp hd]
      · rw [PE.process_os_drain_first s x hr ho hp
          (by revert hd; cases s.drainSent <;> simp)]
  · intro hp
    rw [PE.process_os_acc s x hr ho hp]
  · intro y hy
    simp [PE.process, hy]

/-- Witness for C5 at a concrete input. -/
theorem claim_C5_witness :
    (({ reset := false, outputStationary := true, preloadValid := true,
        preloadData := 0, inTop := 9, inLeft := 0 } : PEIn).reset = false)
    ∧ (PE.process
        { preloadBuffer := 0, accumulator := 6, rightOut := 0, bottomOut := 0,
          drainSent := false }
        { reset := false, outputStationary := true, preloadValid := true,
          preloadData := 0, inTop := 9, inLeft := 0 }).bottomOut = 6 := by
  refine ⟨rfl, ?_⟩
  exact (((claim_C5
    { preloadBuffer := 0, accumulator := 6, rightOut := 0, bottomOut := 0,
      drainSent := false }
    { reset := false, outputStationary := true, preloadValid := true,
      preloadData := 0, inTop := 9, inLeft := 0 } rfl rfl).1 rfl).1 rfl).1

/-- Claim C10: when both `read_enable` and `write_enable` are asserted on
the same tick (reset low), the memory performs neither operation: the store
is unchanged, `read_data` keeps its previous value, `ready` stays
deasserted, and an error is logged. -/
theorem claim_C10 (st : MemIfState) (x : MemIn) (hr : x.reset = false)
    (hre : x.readEnable = true) (hwe : x.writeEnable = true) :
    (Memory.memoryProcess st x).1.store = st.store
    ∧ (Memory.memoryProcess st x).1.readData = st.readData
    ∧ (Memory.memoryProcess st x).1.ready = false
    ∧ (Memory.memoryProcess st x).2 = true := by
  simp [Memory.memoryProcess, hr, hre, hwe]

/-- Witness for C10 at a concrete input. -/
theorem claim_C10_witness :
    (({ reset := false, readEnable := true, writeEnable := true,
        address := 8, writeData := 4 } : MemIn).reset = false)
    ∧ (Memory.memoryProcess
        { store := fun _ => none, readData := 2, ready := true }
        { reset := false, readEnable := true, writeEnable := true,
          address := 8, writeData := 4 }).1.readData = 2 := by
  refine ⟨rfl, ?_⟩
  exact (claim_C10
    { store := fun _ => none, readData := 2, ready := true }
    { reset := false, readEnable := true, writeEnable := true,
      address := 8, writeData := 4 } rfl rfl rfl).2.1

/-- Claim C8: the tiling schedule is `num_i_tiles = ⌈k1/M⌉`,
`num_j_tiles = ⌈k3/tile_width⌉` and `num_k_tiles = ⌈k2/M⌉` with
`tile_width = min(M, N)` (so the j dimension is tiled by `min(M, N)`
columns, not by `N`); the Phase9 square-grid variant's `num_j_tiles`
coincides with the same formula at `N = M`. -/
theorem claim_C8 (M N k1 k2 k3 : ℕ) :
    phase7TileWidth M N = min M N
    ∧ phase7NumITiles M k1 = k1 ⌈/⌉ M
    ∧ phase7NumJTiles M N k3 = k3 ⌈/⌉ min M N
    ∧ phase7NumKTiles M k2 = k2 ⌈/⌉ M
    ∧ phase9NumJTiles M k3 = k3 ⌈/⌉ min M M := by
  have hw : phase7TileWidth M N = min M N := by
    unfold phase7TileWidth
    rcases Nat.lt_or_ge M N with h | h
    · rw [if_pos h, Nat.min_eq_left (by omega)]
    · rw [if_neg (by omega), Nat.min_eq_right (by omega)]
  refine ⟨hw, ?_, ?_, ?_, ?_⟩
  · rw [Nat.ceilDiv_eq_add_pred_div]; rfl
  · rw [Nat.ceilDiv_eq_add_pred_div]
    unfold phase7NumJTiles
    rw [hw]
  · rw [Nat.ceilDiv_eq_add_pred_div]; rfl
  · rw [Nat.ceilDiv_eq_add_pred_div, Nat.min_self]; rfl

/-- Claim C3: the WS stream+drain phase runs for
`total_cycles = k1 + M + N` ticks; at tick `c` it feeds
`in_left[i] = A_tile[c - i][i]` gated by `0 ≤ c - i < k1` and `i < k2`
(the cycle-`c` feed is the signal value the grid observes at edge `c + 1`);
the value observed on `out_bottom[j]` at tick `c = r + M + j + 1` is the
logical-row-`r` partial product against column `j`'s preloaded weights; and
the loop adds (`+=`) that value into `C_tile[r][j]` exactly when
`0 ≤ r < k1` and `j < k3`, discarding all out-of-range drain values. -/
theorem claim_C3 (M N k1 k2 k3 : ℕ) (At Wt C0 : ℕ → ℕ → ℚ) (hM : 0 < M) :
    (∀ c i, (wsGridIn k1 k2 k3 At Wt (c + 1)).inLeft i
        = if i ≤ c ∧ c - i < k1 ∧ i < k2 then At (c - i) i else 0)
    ∧ (∀ r j, wsRead M k1 k2 k3 At Wt (r + M + j + 1) j
        = ∑ i ∈ Finset.range M,
            (if r < k1 ∧ i < k2 then At r i else 0)
              * wsPreloadData k2 k3 Wt i j)
    ∧ (∀ r j, wsTile M N k1 k2 k3 At Wt C0 r j
        = if r < k1 ∧ j < N ∧ j < k3 then
            C0 r j + ∑ i ∈ Finset.range M,
              (if i < k2 then At r i * Wt i j else 0)
          else C0 r j) := by
  refine ⟨?_, ?_, ?_⟩
  · intro c i
    simp [wsGridIn, wsLeftSig, wsFeedA]
  · intro r j
    exact wsRead_eq M k1 k2 k3 At Wt hM r j
  · intro r j
    exact wsTile_spec M N k1 k2 k3 At Wt C0 hM r j

/-- Witness for C3 at the spec's concrete 2×2 scenario. -/
theorem claim_C3_witness :
    0 < 2 ∧ wsTile 2 2 2 2 2 matA2 matW2 zeroMat 0 0 = 19 := by
  refine ⟨by norm_num, ?_⟩
  have h := (claim_C3 2 2 2 2 2 matA2 matW2 zeroMat (by norm_num)).2.2 0 0
  rw [h]
  norm_num [matA2, matW2, zeroMat, Finset.sum_range_succ]

/-- Counterexample to claim C2 as stated: with `M = N = 2`, `k2 = 2` the
accumulate phase runs `osStreamCycles = 7` ticks, not `k2 + M + N = 6`; the
drain accumulates (`+=`) into a preexisting C tile value instead of
overwriting it (cell `(1,0)` becomes `100 + 43`, not `43`); and the value
read at drain tick `1` is row 1's accumulator (43), not row 0's result
(`19 = (A·W)[0][0]`), so the drained value for rows below `M - 1` does not
correspond to logical row `M - 1 - t`. -/
theorem claim_C2_counterexample :
    osStreamCycles 2 2 2 = 7 ∧ (2 + 2 + 2 ≠ 7)
    ∧ osTile 2 2 2 2 2 matA2 matW2 matHundred 1 0 = 143
    ∧ osTile 2 2 2 2 2 matA2 matW2 zeroMat 0 0 = 43
    ∧ naiveMatMul 2 matA2 matW2 0 0 = 19
    ∧ naiveMatMul 2 matA2 matW2 1 0 = 43 := by
  refine ⟨rfl, by omega, ?_, ?_, ?_, ?_⟩
  · rw [osTile_spec 2 2 2 2 2 matA2 matW2 matHundred (by norm_num) 1 0]
    rw [if_pos (by norm_num), if_pos (by norm_num)]
    rw [osAccv_eq 2 2 2 2 2 matA2 matW2 1 0 (by norm_num) (by norm_num)]
    norm_num [matA2, matW2, matHundred, Finset.sum_range_succ]
  · rw [osTile_spec 2 2 2 2 2 matA2 matW2 zeroMat (by norm_num) 0 0]
    rw [if_pos (by norm_num), if_neg (by norm_num)]
    rw [osAccv_eq 2 2 2 2 2 matA2 matW2 1 0 (by norm_num) (by norm_num)]
    norm_num [matA2, matW2, zeroMat, Finset.sum_range_succ]
  · norm_num [naiveMatMul, matA2, matW2, Finset.sum_range_succ]
  · norm_num [naiveMatMul, matA2, matW2, Finset.sum_range_succ]

/-- Claim C2 as amended: the accumulate phase runs
`stream_cycles = k2 + M + N + 1` ticks, feeding `in_left[i] = A_tile[i][k]`
with `k = c - i` and `in_top[j] = W_tile[k][j]` with `k = c - j`, each gated
to 0 when out of bounds, with no external reads of the grid outputs, so each
PE `(i, j)` accumulates the gated `Σ_k A[i][k]·W[k][j]`; the controller then
asserts `preload_valid`, waits one settle tick plus a sub-cycle delay, and
for exactly `M` drain ticks reads `out_bottom[j]`, accumulating (`+=`, not
overwriting) the tick-`t` value into `C_tile[M-1-t][j]` for in-range rows
and columns; the tick-0 value is row `M-1`'s accumulator, but the tick-`t`
value for `t ≥ 1` is the accumulator of row `M-t`, one row below the row it
is stored into. -/
theorem claim_C2 (M N k1 k2 k3 : ℕ) (At Wt C0 : ℕ → ℕ → ℚ) (hM : 0 < M) :
    (∀ c i, c < osStreamCycles M N k2 →
      (osGridIn M N k1 k2 k3 At Wt (c + 1)).inLeft i
        = if i ≤ c ∧ c - i < k2 ∧ i < k1 then At i (c - i) else 0)
    ∧ (∀ c j, c < osStreamCycles M N k2 →
      (osGridIn M N k1 k2 k3 At Wt (c + 1)).inTop j
        = if j ≤ c ∧ c - j < k2 ∧ j < k3 then Wt (c - j) j else 0)
    ∧ (∀ i j, i < M → j < N →
      osAccv M N k1 k2 k3 At Wt i j
        = if i < k1 ∧ j < k3 then ∑ k ∈ Finset.range k2, At i k * Wt k j
          else 0)
    ∧ (∀ j, osDrainRead M N k1 k2 k3 At Wt 0 j
        = osAccv M N k1 k2 k3 At Wt (M - 1) j)
    ∧ (∀ t j, 1 ≤ t → t < M →
      osDrainRead M N k1 k2 k3 At Wt t j
        = osAccv M N k1 k2 k3 At Wt (M - t) j)
    ∧ (∀ r j, osTile M N k1 k2 k3 At Wt C0 r j
        = if r < M ∧ r < k1 ∧ j < N ∧ j < k3 then
            C0 r j + osDrainRead M N k1 k2 k3 At Wt (M - 1 - r) j
          else C0 r j) := by
  refine ⟨?_, ?_, ?_, ?_, ?_, ?_⟩
  · intro c i hc
    rw [osGridIn, if_pos (by omega)]
    simp [osLeftSig, osFeedL]
  · intro c j hc
    rw [osGridIn, if_pos (by omega)]
    simp [osTopSig, osFeedT]
  · intro i j hi hj
    exact osAccv_eq M N k1 k2 k3 At Wt i j hi hj
  · intro j
    rw [osDrainRead_eq M N k1 k2 k3 At Wt hM 0 j hM, if_pos rfl]
  · intro t j ht htM
    rw [osDrainRead_eq M N k1 k2 k3 At Wt hM t j htM, if_neg (by omega)]
  · intro r j
    unfold osTile
    rw [osTile_fold M N k1 k2 k3 At Wt C0 M (le_refl M)]
    refine if_congr ?_ rfl rfl
    constructor
    · rintro ⟨h1, _, h3, h4, h5⟩
      exact ⟨h1, h3, h4, h5⟩
    · rintro ⟨h1, h3, h4, h5⟩
      exact ⟨h1, by omega, h3, h4, h5⟩

/-- Witness for C2 (amended) at the spec's concrete 2×2 scenario. -/
theorem claim_C2_witness :
    0 < 2 ∧ osTile 2 2 2 2 2 matA2 matW2 zeroMat 1 1 = 50 := by
  refine ⟨by norm_num, ?_⟩
  have h := claim_C2 2 2 2 2 2 matA2 matW2 zeroMat (by norm_num)
  rw [h.2.2.2.2.2 1 1, if_pos (by norm_num)]
  rw [show (2 : ℕ) - 1 - 1 = 0 from rfl, h.2.2.2.1 1]
  rw [h.2.2.1 1 1 (by norm_num) (by norm_num), if_pos (by norm_num)]
  norm_num [matA2, matW2, zeroMat, Finset.sum_range_succ]

/-- Pointwise effect of one conditional row-fill loop (tile reads): row
`row` gets `v j` at every column `j < n` satisfying the bound check. -/
theorem foldl_rowFill (cond : ℕ → Prop) [DecidablePred cond] (row : ℕ)
    (v : ℕ → ℚ) :
    ∀ (n : ℕ) (buf : ℕ → ℕ → ℚ) (r c : ℕ),
      ((List.range n).foldl
        (fun buf j => if cond j then matUpdate buf row j (v j) else buf)
        buf) r c
      = if r = row ∧ c < n ∧ cond c then v c else buf r c := by
  intro n
  induction n with
  | zero => intro buf r c; simp
  | succ nn ih =>
    intro buf r c
    rw [List.range_succ, List.foldl_append]
    simp only [List.foldl_cons, List.foldl_nil]
    by_cases hcn : cond nn
    · rw [if_pos hcn]
      simp only [matUpdate, ih]
      by_cases hc : r = row ∧ c = nn
      · rw [if_pos hc, if_pos ⟨hc.1, by omega, by rw [hc.2]; exact hcn⟩,
          hc.2]
      · rw [if_neg hc]
        refine if_congr ?_ rfl rfl
        constructor
        · rintro ⟨h1, h2, h3⟩; exact ⟨h1, by omega, h3⟩
        · rintro ⟨h1, h2, h3⟩
          refine ⟨h1, ?_, h3⟩
          rcases Nat.lt_or_ge c nn with h | h
          · exact h
          · exact absurd ⟨h1, by omega⟩ hc
    · rw [if_neg hcn, ih]
      refine if_congr ?_ rfl rfl
      constructor
      · rintro ⟨h1, h2, h3⟩; exact ⟨h1, by omega, h3⟩
      · rintro ⟨h1, h2, h3⟩
        refine ⟨h1, ?_, h3⟩
        rcases Nat.lt_or_ge c nn with h | h
        · exact h
        · exact absurd (show c = nn by omega) (fun he => hcn (he ▸ h3))

/-- Pointwise effect of a conditional two-level fill over an `n × Mw`
buffer. -/
theorem foldl_rowsFill (Mw : ℕ) (cond : ℕ → ℕ → Prop)
    [∀ i j, Decidable (cond i j)] (v : ℕ → ℕ → ℚ) :
    ∀ (n : ℕ) (buf : ℕ → ℕ → ℚ) (r c : ℕ),
      ((List.range n).foldl
        (fun buf i =>
          (List.range Mw).foldl
            (fun buf j => if cond i j then matUpdate buf i j (v i j) else buf)
            buf)
        buf) r c
      = if r < n ∧ c < Mw ∧ cond r c then v r c else buf r c := by
  intro n
  induction n with
  | zero => intro buf r c; simp
  | succ nn ih =>
    intro buf r c
    rw [List.range_succ, List.foldl_append]
    simp only [List.foldl_cons, List.foldl_nil]
    rw [foldl_rowFill (cond nn) nn (v nn) Mw _ r c, ih]
    by_cases hr : r = nn
    · subst hr
      by_cases hcc : c < Mw ∧ cond r c
      · rw [if_pos ⟨rfl, hcc.1, hcc.2⟩, if_pos ⟨by omega, hcc.1, hcc.2⟩]
      · rw [if_neg (by rintro ⟨_, h2, h3⟩; exact hcc ⟨h2, h3⟩),
          if_neg (by rintro ⟨h1, _, _⟩; omega),
          if_neg (by rintro ⟨_, h2, h3⟩; exact hcc ⟨h2, h3⟩)]
    · rw [if_neg (by tauto)]
      refine if_congr ?_ rfl rfl
      constructor
      · rintro ⟨h1, h2, h3⟩; exact ⟨by omega, h2, h3⟩
      · rintro ⟨h1, h2, h3⟩; exact ⟨by omega, h2, h3⟩

/-- Pointwise characterization of `read_A_tile`: zero everywhere except the
entries whose global coordinates are in bounds, which hold the value read
from the matching byte address. -/
theorem readATile_apply (M : ℕ) (mem : ℤ → ℚ) (aBase : ℤ)
    (k1 k2 iT kT i j : ℕ) :
    readATile M mem aBase k1 k2 iT kT i j
      = if i < M ∧ j < M ∧ (iT * M + i < k1 ∧ kT * M + j < k2) then
          mem (aBase + ((iT * M + i) * k2 + (kT * M + j)) * 4)
        else 0 := by
  unfold readATile
  rw [foldl_rowsFill M (fun i j => iT * M + i < k1 ∧ kT * M + j < k2)
    (fun i j => mem (aBase + ((iT * M + i) * k2 + (kT * M + j)) * 4))
    M zeroMat i j]
  rfl

/-- Pointwise characterization of `read_W_tile`. -/
theorem readWTile_apply (M : ℕ) (mem : ℤ → ℚ) (wBase : ℤ)
    (k2 k3 kT jT i j : ℕ) :
    readWTile M mem wBase k2 k3 kT jT i j
      = if i < M ∧ j < M ∧ (kT * M + i < k2 ∧ jT * M + j < k3) then
          mem (wBase + ((kT * M + i) * k3 + (jT * M + j)) * 4)
        else 0 := by
  unfold readWTile
  rw [foldl_rowsFill M (fun i j => kT * M + i < k2 ∧ jT * M + j < k3)
    (fun i j => mem (wBase + ((kT * M + i) * k3 + (jT * M + j)) * 4))
    M zeroMat i j]
  rfl

/-- Claim C7: before streaming, every tile-buffer entry whose logical
coordinate lies outside the true submatrix bounds is exactly zero (the
routines zero the whole `M × M` buffer and then fill only in-bounds
entries, which receive the memory value at the matching byte address). -/
theorem claim_C7 (M : ℕ) (mem : ℤ → ℚ) (aBase wBase : ℤ)
    (k1 k2 k3 iT kT jT i j : ℕ) (hi : i < M) (hj : j < M) :
    (¬(iT * M + i < k1 ∧ kT * M + j < k2) →
      readATile M mem aBase k1 k2 iT kT i j = 0)
    ∧ ((iT * M + i < k1 ∧ kT * M + j < k2) →
      readATile M mem aBase k1 k2 iT kT i j
        = mem (aBase + ((iT * M + i) * k2 + (kT * M + j)) * 4))
    ∧ (¬(kT * M + i < k2 ∧ jT * M + j < k3) →
      readWTile M mem wBase k2 k3 kT jT i j = 0)
    ∧ ((kT * M + i < k2 ∧ jT * M + j < k3) →
      readWTile M mem wBase k2 k3 kT jT i j
        = mem (wBase + ((kT * M + i) * k3 + (jT * M + j)) * 4)) := by
  refine ⟨?_, ?_, ?_, ?_⟩
  · intro h
    rw [readATile_apply, if_neg (by tauto)]
  · intro h
    rw [readATile_apply, if_pos ⟨hi, hj, h⟩]
  · intro h
    rw [readWTile_apply, if_neg (by tauto)]
  · intro h
    rw [readWTile_apply, if_pos ⟨hi, hj, h⟩]

/-- Witness for C7 at a concrete input: a 3×3 buffer for a 2×2 logical
matrix is zero at the out-of-range cell (2, 2). -/
theorem claim_C7_witness :
    2 < 3 ∧ readATile 3 (fun _ => 9) 0 2 2 0 0 2 2 = 0 := by
  refine ⟨by norm_num, ?_⟩
  exact (claim_C7 3 (fun _ => 9) 0 0 2 2 0 0 0 0 2 2 (by norm_num)
    (by norm_num)).1 (by omega)

/-- A left fold of additions over `List.range` is the corresponding sum. -/
theorem foldl_addRange (f : ℕ → ℚ) :
    ∀ (n : ℕ) (a : ℚ),
      (List.range n).foldl (fun acc k => acc + f k) a
        = a + ∑ k ∈ Finset.range n, f k := by
  intro n
  induction n with
  | zero => intro a; simp
  | succ nn ih =>
    intro a
    rw [List.range_succ, List.foldl_append]
    simp only [List.foldl_cons, List.foldl_nil]
    rw [ih, Finset.sum_range_succ, add_assoc]

/-- Pointwise effect of one unconditional row fill (committing one tile row
of results). -/
theorem foldl_fillRow (row : ℕ) (v : ℕ → ℚ) :
    ∀ (n : ℕ) (buf : ℕ → ℕ → ℚ) (r c : ℕ),
      ((List.range n).foldl (fun buf j => matUpdate buf row j (v j)) buf) r c
        = if r = row ∧ c < n then v c else buf r c := by
  intro n
  induction n with
  | zero => intro buf r c; simp
  | succ nn ih =>
    intro buf r c
    rw [List.range_succ, List.foldl_append]
    simp only [List.foldl_cons, List.foldl_nil]
    simp only [matUpdate, ih]
    by_cases hc : r = row ∧ c = nn
    · rw [if_pos hc, if_pos ⟨hc.1, by omega⟩, hc.2]
    · rw [if_neg hc]
      refine if_congr ?_ rfl rfl
      constructor
      · rintro ⟨h1, h2⟩; exact ⟨h1, by omega⟩
      · rintro ⟨h1, h2⟩
        refine ⟨h1, ?_⟩
        rcases Nat.lt_or_ge c nn with h | h
        · exact h
        · exact absurd ⟨h1, by omega⟩ hc

/-- Pointwise effect of one accumulate-row loop (`cache[i][j] += v j` for
each column of one row). -/
theorem foldl_accRow (row : ℕ) (v : ℕ → ℚ) :
    ∀ (n : ℕ) (buf : ℕ → ℕ → ℚ) (r c : ℕ),
      ((List.range n).foldl
        (fun buf j => matUpdate buf row j (buf row j + v j)) buf) r c
        = if r = row ∧ c < n then buf r c + v c else buf r c := by
  intro n
  induction n with
  | zero => intro buf r c; simp
  | succ nn ih =>
    intro buf r c
    rw [List.range_succ, List.foldl_append]
    simp only [List.foldl_cons, List.foldl_nil]
    simp only [matUpdate, ih]
    by_cases hc : r = row ∧ c = nn
    · rw [if_pos hc, if_neg (by rintro ⟨_, h⟩; omega),
        if_pos ⟨hc.1, by omega⟩, hc.2, hc.1]
    · rw [if_neg hc]
      refine if_congr ?_ rfl rfl
      constructor
      · rintro ⟨h1, h2⟩; exact ⟨h1, by omega⟩
      · rintro ⟨h1, h2⟩
        refine ⟨h1, ?_⟩
        rcases Nat.lt_or_ge c nn with h | h
        · exact h
        · exact absurd ⟨h1, by omega⟩ hc

/-- Pointwise effect of one whole-grid accumulate pass
(`cache[i][j] += w i j` over `n × nJ` cells). -/
theorem foldl_accGrid (nJ : ℕ) (w : ℕ → ℕ → ℚ) :
    ∀ (n : ℕ) (buf : ℕ → ℕ → ℚ) (r c : ℕ),
      ((List.range n).foldl
        (fun buf i =>
          (List.range nJ).foldl
            (fun buf j => matUpdate buf i j (buf i j + w i j)) buf)
        buf) r c
        = if r < n ∧ c < nJ then buf r c + w r c else buf r c := by
  intro n
  induction n with
  | zero => intro buf r c; simp
  | succ nn ih =>
    intro buf r c
    rw [List.range_succ, List.foldl_append]
    simp only [List.foldl_cons, List.foldl_nil]
    rw [foldl_accRow nn (w nn) nJ _ r c]
    by_cases hr : r = nn
    · subst hr
      rw [ih]
      by_cases hcc : c < nJ
      · rw [if_pos ⟨rfl, hcc⟩, if_neg (by rintro ⟨h, _⟩; omega),
          if_pos ⟨by omega, hcc⟩]
      · rw [if_neg (by tauto), if_neg (by tauto), if_neg (by tauto)]
    · rw [if_neg (by tauto), ih]
      refine if_congr ?_ rfl rfl
      constructor
      · rintro ⟨h1, h2⟩; exact ⟨by omega, h2⟩
      · rintro ⟨h1, h2⟩; exact ⟨by omega, h2⟩

/-- Pointwise characterization of the Phase7 i → j → k loop nest. -/
theorem phase7Committed_apply (nI nJ nK : ℕ) (p : ℕ → ℕ → ℕ → ℚ)
    (r c : ℕ) :
    phase7Committed nI nJ nK p r c
      = if r < nI ∧ c < nJ then ∑ k ∈ Finset.range nK, p r c k else 0 := by
  unfold phase7Committed
  have hrows : ∀ (n : ℕ) (buf : ℕ → ℕ → ℚ) (r c : ℕ),
      ((List.range n).foldl
        (fun Cm iT =>
          (List.range nJ).foldl
            (fun Cm jT =>
              matUpdate Cm iT jT
                ((List.range nK).foldl (fun acc kT => acc + p iT jT kT) 0))
            Cm)
        buf) r c
      = if r < n ∧ c < nJ then
          (List.range nK).foldl (fun acc kT => acc + p r c kT) 0
        else buf r c := by
    intro n
    induction n with
    | zero => intro buf r c; simp
    | succ nn ih =>
      intro buf r c
      rw [List.range_succ, List.foldl_append]
      simp only [List.foldl_cons, List.foldl_nil]
      rw [foldl_fillRow nn
        (fun jT => (List.range nK).foldl (fun acc kT => acc + p nn jT kT) 0)
        nJ _ r c]
      by_cases hr : r = nn
      · subst hr
        by_cases hcc : c < nJ
        · rw [if_pos ⟨rfl, hcc⟩, if_pos ⟨by omega, hcc⟩]
        · rw [if_neg (by tauto), ih, if_neg (by rintro ⟨h, _⟩; omega),
            if_neg (by tauto)]
      · rw [if_neg (by tauto), ih]
        refine if_congr ?_ rfl rfl
        constructor
        · rintro ⟨h1, h2⟩; exact ⟨by omega, h2⟩
        · rintro ⟨h1, h2⟩; exact ⟨by omega, h2⟩
  rw [hrows nI zeroMat r c]
  by_cases h : r < nI ∧ c < nJ
  · rw [if_pos h, if_pos h, foldl_addRange, zero_add]
  · rw [if_neg h, if_neg h]
    rfl

/-- Pointwise characterization of the Phase9 k → i → j data-reuse loop
nest. -/
theorem phase9Committed_apply (nI nJ nK : ℕ) (p : ℕ → ℕ → ℕ → ℚ)
    (r c : ℕ) :
    phase9Committed nI nJ nK p r c
      = if r < nI ∧ c < nJ then ∑ k ∈ Finset.range nK, p r c k else 0 := by
  unfold phase9Committed
  have houter : ∀ (m : ℕ) (buf : ℕ → ℕ → ℚ) (r c : ℕ),
      ((List.range m).foldl
        (fun cache kT =>
          (List.range nI).foldl
            (fun cache iT =>
              (List.range nJ).foldl
                (fun cache jT =>
                  matUpdate cache iT jT (cache iT jT + p iT jT kT))
                cache)
            cache)
        buf) r c
      = if r < nI ∧ c < nJ then
          buf r c + ∑ k ∈ Finset.range m, p r c k
        else buf r c := by
    intro m
    induction m with
    | zero => intro buf r c; simp
    | succ mm ih =>
      intro buf r c
      rw [List.range_succ, List.foldl_append]
      simp only [List.foldl_cons, List.foldl_nil]
      rw [foldl_accGrid nJ (fun i j => p i j mm) nI _ r c, ih]
      by_cases h : r < nI ∧ c < nJ
      · rw [if_pos h, if_pos h, if_pos h, Finset.sum_range_succ, add_assoc]
      · rw [if_neg h, if_neg h, if_neg h]
  rw [houter nK zeroMat r c]
  by_cases h : r < nI ∧ c < nJ
  · rw [if_pos h, if_pos h]
    show 0 + _ = _
    rw [zero_add]
  · rw [if_neg h, if_neg h]
    rfl

/-- Claim C6: in both loop orders — Phase7's i → j → k and Phase9's
data-reuse k → i → j — every output tile `(i, j)` accumulates its per-k-tile
contributions exactly once per k-tile, in ascending k order, before being
committed, so the committed value is the sum over exactly the touched
k-tiles with no double counting, and the two orders agree. -/
theorem claim_C6 (nI nJ nK : ℕ) (p : ℕ → ℕ → ℕ → ℚ) (iT jT : ℕ)
    (hi : iT < nI) (hj : jT < nJ) :
    phase7Committed nI nJ nK p iT jT = ∑ k ∈ Finset.range nK, p iT jT k
    ∧ phase9Committed nI nJ nK p iT jT = ∑ k ∈ Finset.range nK, p iT jT k := by
  constructor
  · rw [phase7Committed_apply, if_pos ⟨hi, hj⟩]
  · rw [phase9Committed_apply, if_pos ⟨hi, hj⟩]

/-- Witness for C6 at a concrete input. -/
theorem claim_C6_witness :
    0 < 1 ∧ phase7Committed 1 1 2 (fun _ _ k => (k : ℚ) + 1) 0 0 = 3
    ∧ phase9Committed 1 1 2 (fun _ _ k => (k : ℚ) + 1) 0 0 = 3 := by
  have h := claim_C6 1 1 2 (fun _ _ k => (k : ℚ) + 1) 0 0
    (by norm_num) (by norm_num)
  refine ⟨by norm_num, ?_, ?_⟩
  · rw [h.1]
    norm_num [Finset.sum_range_succ]
  · rw [h.2]
    norm_num [Finset.sum_range_succ]

/-- A nonpositive dimension yields a nonpositive tile count, so the C++
`for` loop over tiles runs zero times. -/
theorem phase9NumTilesInt_nonpos (M : ℕ) (k : ℤ) (hM : 0 < M) (hk : k ≤ 0) :
    (phase9NumTilesInt M k).toNat = 0 := by
  unfold phase9NumTilesInt
  rw [Int.toNat_eq_zero]
  rcases Int.lt_or_le (k + M - 1) 0 with h | h
  · have h1 : Int.tdiv (k + M - 1) M = -((-(k + M - 1)).tdiv M) := by
      rw [Int.neg_tdiv, neg_neg]
    rw [h1]
    have h2 : 0 ≤ (-(k + M - 1)).tdiv M := Int.tdiv_nonneg (by omega) (by omega)
    omega
  · rw [Int.tdiv_eq_ediv h (by omega)]
    have h2 := Int.ediv_eq_zero_of_lt h (show k + M - 1 < (M : ℤ) by omega)
    omega

/-- Counterexample to claim C9 as stated: configuration errors are not
rejected before streaming.  A misaligned read (byte address 2) proceeds and
silently substitutes 0.0 (with only a logged warning) even though the
location stores 7; a misaligned write is silently dropped; and a job with
`k1 = 0` (or negative `k1`) is not rejected — the controller computes an
empty tile schedule and runs to completion. -/
theorem claim_C9_counterexample :
    Memory.readFromFile (fun _ => some 7) 2 = (0, true)
    ∧ (Memory.writeToFile (fun _ => some 7) 2 9).1 = (fun _ => some 7)
    ∧ phase9TileTriples 7 0 16 16 = []
    ∧ phase9TileTriples 7 (-3) 16 16 = [] := by
  refine ⟨?_, ?_, ?_, ?_⟩
  · rw [Memory.readFromFile, if_pos (by decide)]
  · rw [Memory.writeToFile, if_pos (by decide)]
  · rw [phase9TileTriples,
      phase9NumTilesInt_nonpos 7 0 (by norm_num) (by norm_num)]
    simp
  · rw [phase9TileTriples,
      phase9NumTilesInt_nonpos 7 (-3) (by norm_num) (by norm_num)]
    simp

/-- Claim C9 as amended: configuration errors are not rejected up front.
Every misaligned read warns and substitutes 0.0 instead of failing, every
misaligned write warns and leaves the store unchanged, and a zero or
negative dimension flows unchecked into the schedule, which becomes empty —
the controller streams nothing and completes normally. -/
theorem claim_C9 (M : ℕ) (hM : 0 < M) :
    (∀ (store : ℤ → Option ℚ) (addr : ℤ), addr % 4 ≠ 0 →
      Memory.readFromFile store addr = (0, true))
    ∧ (∀ (store : ℤ → Option ℚ) (addr : ℤ) (v : ℚ), addr % 4 ≠ 0 →
      Memory.writeToFile store addr v = (store, true))
    ∧ (∀ k1 k2 k3 : ℤ, k1 ≤ 0 ∨ k2 ≤ 0 ∨ k3 ≤ 0 →
      phase9TileTriples M k1 k2 k3 = []) := by
  refine ⟨?_, ?_, ?_⟩
  · intro store addr h
    rw [Memory.readFromFile, if_pos h]
  · intro store addr v h
    rw [Memory.writeToFile, if_pos h]
  · intro k1 k2 k3 h
    rcases h with h | h | h
    · rw [phase9TileTriples, phase9NumTilesInt_nonpos M k1 hM h]
      simp
    · rw [phase9TileTriples, phase9NumTilesInt_nonpos M k2 hM h]
      simp
    · rw [phase9TileTriples, phase9NumTilesInt_nonpos M k3 hM h]
      simp

/-- Witness for C9 (amended) at a concrete input. -/
theorem claim_C9_witness :
    0 < 7 ∧ ((3 : ℤ) % 4 ≠ 0)
    ∧ Memory.readFromFile (fun _ => some 5) 3 = (0, true)
    ∧ phase9TileTriples 7 16 0 16 = [] := by
  refine ⟨by norm_num, by decide, ?_, ?_⟩
  · exact (claim_C9 7 (by norm_num)).1 (fun _ => some 5) 3 (by decide)
  · exact (claim_C9 7 (by norm_num)).2.2 16 0 16 (by norm_num)

/-- Claim C1, evaluated at the spec's §8 scenario (`M = N = 2`,
`k1 = k2 = k3 = 2`, `A = [[1,2],[3,4]]`, `W = [[5,6],[7,8]]`,
reference `C = [[19,22],[43,50]]`): the WS-mode tiled run reproduces the
reference exactly, but the OS-mode tiled run yields `43` at cell `(0,0)`
(row 0 receives row 1's accumulator, because from the second drain tick on
the controller reads the value written one clock edge earlier), which
violates the 1e-3 tolerance. -/
theorem claim_C1 :
    (runTiled false 2 2 2 2 2 matA2 matW2 0 0 = 19
      ∧ runTiled false 2 2 2 2 2 matA2 matW2 0 1 = 22
      ∧ runTiled false 2 2 2 2 2 matA2 matW2 1 0 = 43
      ∧ runTiled false 2 2 2 2 2 matA2 matW2 1 1 = 50)
    ∧ (naiveMatMul 2 matA2 matW2 0 0 = 19
      ∧ naiveMatMul 2 matA2 matW2 0 1 = 22
      ∧ naiveMatMul 2 matA2 matW2 1 0 = 43
      ∧ naiveMatMul 2 matA2 matW2 1 1 = 50)
    ∧ runTiled true 2 2 2 2 2 matA2 matW2 0 0 = 43
    ∧ ¬(|runTiled true 2 2 2 2 2 matA2 matW2 0 0
          - naiveMatMul 2 matA2 matW2 0 0| ≤ 1 / 1000) := by
  have hws : runTiled false 2 2 2 2 2 matA2 matW2
      = commitTile 2 2 2 2 zeroMat
          (wsTile 2 2 2 2 2 (subA 2 2 2 matA2 0 0)
            (subW 2 2 2 2 matW2 0 0) zeroMat) 0 0 := rfl
  have hos : runTiled true 2 2 2 2 2 matA2 matW2
      = commitTile 2 2 2 2 zeroMat
          (osTile 2 2 2 2 2 (subA 2 2 2 matA2 0 0)
            (subW 2 2 2 2 matW2 0 0) zeroMat) 0 0 := rfl
  have hcommit : ∀ (T : ℕ → ℕ → ℚ) (r c : ℕ), r < 2 → c < 2 →
      commitTile 2 2 2 2 zeroMat T 0 0 r c = T r c := by
    intro T r c hr hc
    unfold commitTile
    rw [if_pos (by omega)]
    norm_num
  have hwscell : ∀ r c : ℕ, r < 2 → c < 2 →
      runTiled false 2 2 2 2 2 matA2 matW2 r c
        = matA2 r 0 * matW2 0 c + matA2 r 1 * matW2 1 c := by
    intro r c hr hc
    rw [hws, hcommit _ r c hr hc,
      wsTile_spec 2 2 2 2 2 _ _ _ (by norm_num) r c,
      if_pos ⟨hr, hc, hc⟩]
    rw [Finset.sum_range_succ, Finset.sum_range_succ, Finset.sum_range_zero]
    rw [if_pos (by norm_num), if_pos (by norm_num)]
    rw [show subA 2 2 2 matA2 0 0 r 0 = matA2 r 0 from by
        rw [subA, if_pos (by omega)]
        try norm_num,
      show subA 2 2 2 matA2 0 0 r 1 = matA2 r 1 from by
        rw [subA, if_pos (by omega)]
        try norm_num,
      show subW 2 2 2 2 matW2 0 0 0 c = matW2 0 c from by
        rw [subW, if_pos (by omega)]
        try norm_num,
      show subW 2 2 2 2 matW2 0 0 1 c = matW2 1 c from by
        rw [subW, if_pos (by omega)]
        try norm_num]
    simp only [zeroMat]
    ring
  have hnaive : ∀ r c : ℕ,
      naiveMatMul 2 matA2 matW2 r c
        = matA2 r 0 * matW2 0 c + matA2 r 1 * matW2 1 c := by
    intro r c
    rw [naiveMatMul]
    rw [Finset.sum_range_succ, Finset.sum_range_succ, Finset.sum_range_zero,
      zero_add]
  have hoscell : runTiled true 2 2 2 2 2 matA2 matW2 0 0
      = matA2 1 0 * matW2 0 0 + matA2 1 1 * matW2 1 0 := by
    rw [hos, hcommit _ 0 0 (by norm_num) (by norm_num),
      osTile_spec 2 2 2 2 2 _ _ _ (by norm_num) 0 0,
      if_pos (by norm_num), if_neg (by norm_num),
      osAccv_eq 2 2 2 2 2 _ _ 1 0 (by norm_num) (by norm_num),
      if_pos (by norm_num)]
    rw [Finset.sum_range_succ, Finset.sum_range_succ, Finset.sum_range_zero,
      zero_add]
    rw [show subA 2 2 2 matA2 0 0 1 0 = matA2 1 0 from by
        rw [subA, if_pos (by omega)]
        try norm_num,
      show subA 2 2 2 matA2 0 0 1 1 = matA2 1 1 from by
        rw [subA, if_pos (by omega)]
        try norm_num,
      show subW 2 2 2 2 matW2 0 0 0 0 = matW2 0 0 from by
        rw [subW, if_pos (by omega)]
        try norm_num,
      show subW 2 2 2 2 matW2 0 0 1 0 = matW2 1 0 from by
        rw [subW, if_pos (by omega)]
        try norm_num]
    simp only [zeroMat]
    ring
  have h00 := hwscell 0 0 (by norm_num) (by norm_num)
  have h01 := hwscell 0 1 (by norm_num) (by norm_num)
  have h10 := hwscell 1 0 (by norm_num) (by norm_num)
  have h11 := hwscell 1 1 (by norm_num) (by norm_num)
  refine ⟨⟨?_, ?_, ?_, ?_⟩, ⟨?_, ?_, ?_, ?_⟩, ?_, ?_⟩
  · rw [h00]; norm_num [matA2, matW2]
  · rw [h01]; norm_num [matA2, matW2]
  · rw [h10]; norm_num [matA2, matW2]
  · rw [h11]; norm_num [matA2, matW2]
  · rw [hnaive]; norm_num [matA2, matW2]
  · rw [hnaive]; norm_num [matA2, matW2]
  · rw [hnaive]; norm_num [matA2, matW2]
  · rw [hnaive]; norm_num [matA2, matW2]
  · rw [hoscell]; norm_num [matA2, matW2]
  · rw [hoscell, hnaive]; norm_num [matA2, matW2]

/-! # General weight-stationary pipeline correctness

The remaining theorems prove that the WS half of the end-to-end property
holds for every grid size and every logical dimension: the tiled WS run
equals the naive reference multiply exactly (hence within any tolerance).
This isolates the OS drain misalignment of `claim_C1` as the sole
end-to-end failure. -/

/-- A sum gated below `m ≤ n` collapses to a sum over `range m`. -/
theorem sum_range_gate (n m : ℕ) (g : ℕ → ℚ) (hmn : m ≤ n) :
    ∑ i ∈ Finset.range n, (if i < m then g i else 0)
      = ∑ i ∈ Finset.range m, g i := by
  rw [← Finset.sum_subset (Finset.range_subset.mpr hmn)]
  · refine Finset.sum_congr rfl ?_
    intro i hi
    rw [if_pos (Finset.mem_range.mp hi)]
  · intro i _ hi
    rw [if_neg (fun h => hi (Finset.mem_range.mpr h))]

/-- One k-tile's gated column sum is the sum of `f` over that k-tile's
slice of the logical k range. -/
theorem ws_chunk (M k2 : ℕ) (f : ℕ → ℚ) (kT : ℕ) :
    ∑ i ∈ Finset.range M, (if i < min M (k2 - kT * M) then f (kT * M + i) else 0)
      = ∑ k ∈ Finset.Ico (kT * M) (min (kT * M + M) k2), f k := by
  rw [sum_range_gate M (min M (k2 - kT * M)) (fun i => f (kT * M + i))
    (Nat.min_le_left _ _)]
  rw [Finset.sum_Ico_eq_sum_range]
  have h : min (kT * M + M) k2 - kT * M = min M (k2 - kT * M) := by omega
  rw [h]

/-- Summing the k-tile slices over the whole ceiling-division schedule
recovers the sum over the full logical k range. -/
theorem ws_chunks_total (M k2 : ℕ) (hM : 0 < M) (f : ℕ → ℚ) :
    ∑ kT ∈ Finset.range ((k2 + M - 1) / M),
      ∑ k ∈ Finset.Ico (kT * M) (min (kT * M + M) k2), f k
      = ∑ k ∈ Finset.range k2, f k := by
  have hP : ∀ n : ℕ,
      ∑ kT ∈ Finset.range n,
        ∑ k ∈ Finset.Ico (kT * M) (min (kT * M + M) k2), f k
        = ∑ k ∈ Finset.range (min (n * M) k2), f k := by
    intro n
    induction n with
    | zero => simp
    | succ nn ih =>
      rw [Finset.sum_range_succ, ih]
      rcases le_or_lt k2 (nn * M) with h | h
      · have h1 : min (nn * M) k2 = k2 := by omega
        have h2 : min (nn * M + M) k2 = k2 := by omega
        have h3 : min ((nn + 1) * M) k2 = k2 := by
          have : nn * M ≤ (nn + 1) * M := by
            rw [Nat.succ_mul]
            omega
          omega
        rw [h1, h2, h3, Finset.Ico_eq_empty (by omega), Finset.sum_empty,
          add_zero]
      · have h1 : min (nn * M) k2 = nn * M := by omega
        have h3 : min ((nn + 1) * M) k2 = min (nn * M + M) k2 := by
          rw [Nat.succ_mul]
        rw [h1, h3, Finset.range_eq_Ico]
        exact Finset.sum_Ico_consecutive f (by omega) (by omega)
  rw [hP ((k2 + M - 1) / M)]
  have hceil : k2 ≤ ((k2 + M - 1) / M) * M := by
    by_contra h
    push_neg at h
    have h2 : ((k2 + M - 1) / M + 1) * M ≤ k2 + M - 1 := by
      rw [Nat.succ_mul]
      omega
    have h3 : (k2 + M - 1) / M + 1 ≤ (k2 + M - 1) / M :=
      (Nat.le_div_iff_mul_le hM).mpr h2
    omega
  rw [show min (((k2 + M - 1) / M) * M) k2 = k2 from by omega]

/-- The k-loop of the spec-modelled wrapper in WS mode: starting from a
zeroed C tile, the k-tiles accumulate in place, so after `n` k-tiles each
in-range cell holds the sum of the first `n` per-k-tile partial products
and every other cell is still zero. -/
theorem ws_kfold (M N k1 k2 k3 iT jT : ℕ) (A W : ℕ → ℕ → ℚ)
    (hM : 0 < M) :
    ∀ (n : ℕ) (ri cj : ℕ),
      ((List.range n).foldl
        (fun Ct kT =>
          wsTile M N (min M (k1 - iT * M)) (min M (k2 - kT * M))
            (min (phase7TileWidth M N) (k3 - jT * phase7TileWidth M N))
            (subA k1 k2 M A iT kT)
            (subW k2 k3 M (phase7TileWidth M N) W kT jT) Ct)
        zeroMat) ri cj
      = if ri < min M (k1 - iT * M)
          ∧ cj < min (phase7TileWidth M N) (k3 - jT * phase7TileWidth M N) then
          ∑ kT ∈ Finset.range n, ∑ i ∈ Finset.range M,
            (if i < min M (k2 - kT * M) then
              subA k1 k2 M A iT kT ri i
                * subW k2 k3 M (phase7TileWidth M N) W kT jT i cj
            else 0)
        else 0 := by
  intro n
  induction n with
  | zero =>
    intro ri cj
    rw [List.range_zero, List.foldl_nil]
    by_cases h : ri < min M (k1 - iT * M)
        ∧ cj < min (phase7TileWidth M N) (k3 - jT * phase7TileWidth M N)
    · rw [if_pos h, Finset.sum_range_zero]
      rfl
    · rw [if_neg h]
      rfl
  | succ nn ih =>
    intro ri cj
    rw [List.range_succ, List.foldl_append]
    simp only [List.foldl_cons, List.foldl_nil]
    rw [wsTile_spec M N (min M (k1 - iT * M)) (min M (k2 - nn * M))
      (min (phase7TileWidth M N) (k3 - jT * phase7TileWidth M N))
      (subA k1 k2 M A iT nn)
      (subW k2 k3 M (phase7TileWidth M N) W nn jT) _ hM ri cj]
    by_cases h : ri < min M (k1 - iT * M)
        ∧ cj < min (phase7TileWidth M N) (k3 - jT * phase7TileWidth M N)
    · rw [if_pos ⟨h.1, by
          have : phase7TileWidth M N ≤ N := by
            unfold phase7TileWidth
            split <;> omega
          omega, h.2⟩]
      rw [ih ri cj, if_pos h, if_pos h, Finset.sum_range_succ]
    · rw [if_neg (by
          rintro ⟨h1, _, h3⟩
          exact h ⟨h1, h3⟩)]
      rw [ih ri cj, if_neg h, if_neg h]

/-- The accumulated per-k-tile partial products of the wrapper equal the
full dot product of the logical matrices at the global coordinates. -/
theorem ws_tile_value (M N k1 k2 k3 iT jT : ℕ) (A W : ℕ → ℕ → ℚ)
    (hM : 0 < M) (ri cj : ℕ) (hri : ri < min M (k1 - iT * M))
    (hcj : cj < min (phase7TileWidth M N) (k3 - jT * phase7TileWidth M N)) :
    ∑ kT ∈ Finset.range (phase7NumKTiles M k2), ∑ i ∈ Finset.range M,
      (if i < min M (k2 - kT * M) then
        subA k1 k2 M A iT kT ri i
          * subW k2 k3 M (phase7TileWidth M N) W kT jT i cj
      else 0)
    = ∑ k ∈ Finset.range k2,
        A (iT * M + ri) k * W k (jT * phase7TileWidth M N + cj) := by
  have htwM : phase7TileWidth M N ≤ M := by
    unfold phase7TileWidth
    split <;> omega
  have hcong : ∀ kT ∈ Finset.range (phase7NumKTiles M k2),
      (∑ i ∈ Finset.range M,
        (if i < min M (k2 - kT * M) then
          subA k1 k2 M A iT kT ri i
            * subW k2 k3 M (phase7TileWidth M N) W kT jT i cj
        else 0))
      = ∑ i ∈ Finset.range M,
          (if i < min M (k2 - kT * M) then
            A (iT * M + ri) (kT * M + i)
              * W (kT * M + i) (jT * phase7TileWidth M N + cj)
          else 0) := by
    intro kT _
    refine Finset.sum_congr rfl ?_
    intro i hi
    have hiM : i < M := Finset.mem_range.mp hi
    by_cases hg : i < min M (k2 - kT * M)
    · rw [if_pos hg, if_pos hg]
      rw [subA, if_pos ⟨by omega, hiM, by omega, by omega⟩]
      rw [subW, if_pos ⟨hiM, by omega, by omega, by omega⟩]
    · rw [if_neg hg, if_neg hg]
  rw [Finset.sum_congr rfl hcong]
  have hchunk : ∀ kT ∈ Finset.range (phase7NumKTiles M k2),
      (∑ i ∈ Finset.range M,
        (if i < min M (k2 - kT * M) then
          A (iT * M + ri) (kT * M + i)
            * W (kT * M + i) (jT * phase7TileWidth M N + cj)
        else 0))
      = ∑ k ∈ Finset.Ico (kT * M) (min (kT * M + M) k2),
          A (iT * M + ri) k * W k (jT * phase7TileWidth M N + cj) := by
    intro kT _
    exact ws_chunk M k2
      (fun k => A (iT * M + ri) k * W k (jT * phase7TileWidth M N + cj)) kT
  rw [Finset.sum_congr rfl hchunk]
  exact ws_chunks_total M k2 hM
    (fun k => A (iT * M + ri) k * W k (jT * phase7TileWidth M N + cj))

/-- Unfolding of one committed cell. -/
theorem commitTile_apply (k1 k3 M tw : ℕ) (Cg Ct : ℕ → ℕ → ℚ)
    (iT jT r c : ℕ) :
    commitTile k1 k3 M tw Cg Ct iT jT r c
      = if iT * M ≤ r ∧ r < iT * M + M ∧ jT * tw ≤ c ∧ c < jT * tw + tw ∧
            r < k1 ∧ c < k3 then
          Ct (r - iT * M) (c - jT * tw)
        else Cg r c := rfl

/-- The inner commit loop over column tiles: with the column decomposed as
`c = jT0 * tw + cj`, `cj < tw`, exactly the tile `jT0` (if scheduled) can
commit to that column, and its local column is `cj`. -/
theorem commit_jfold (k1 k3 M tw iT : ℕ) (T : ℕ → ℕ → ℕ → ℚ) :
    ∀ (nJ : ℕ) (Cg : ℕ → ℕ → ℚ) (r jT0 cj : ℕ), cj < tw →
      ((List.range nJ).foldl
        (fun Cg jT => commitTile k1 k3 M tw Cg (T jT) iT jT) Cg)
          r (jT0 * tw + cj)
      = if iT * M ≤ r ∧ r < iT * M + M ∧ jT0 < nJ ∧ r < k1 ∧
            jT0 * tw + cj < k3 then
          T jT0 (r - iT * M) cj
        else Cg r (jT0 * tw + cj) := by
  intro nJ
  induction nJ with
  | zero =>
    intro Cg r jT0 cj hcj
    rw [List.range_zero, List.foldl_nil,
      if_neg (by rintro ⟨_, _, h, _, _⟩; omega)]
  | succ nn ih =>
    intro Cg r jT0 cj hcj
    rw [List.range_succ, List.foldl_append]
    simp only [List.foldl_cons, List.foldl_nil]
    have key : (nn * tw ≤ jT0 * tw + cj ∧ jT0 * tw + cj < nn * tw + tw)
        ↔ jT0 = nn := by
      constructor
      · rintro ⟨h1, h2⟩
        rcases lt_trichotomy jT0 nn with h | h | h
        · exfalso
          have h4 : (jT0 + 1) * tw ≤ nn * tw :=
            Nat.mul_le_mul_right tw (by omega)
          rw [Nat.succ_mul] at h4
          omega
        · exact h
        · exfalso
          have h4 : (nn + 1) * tw ≤ jT0 * tw :=
            Nat.mul_le_mul_right tw (by omega)
          rw [Nat.succ_mul] at h4
          omega
      · intro h
        rw [h]
        omega
    rw [commitTile_apply]
    by_cases hj : jT0 = nn
    · subst hj
      by_cases hw : iT * M ≤ r ∧ r < iT * M + M ∧ r < k1 ∧
          jT0 * tw + cj < k3
      · rw [if_pos ⟨hw.1, hw.2.1, by omega, by omega, hw.2.2.1, hw.2.2.2⟩,
          if_pos ⟨hw.1, hw.2.1, by omega, hw.2.2.1, hw.2.2.2⟩]
        rw [show jT0 * tw + cj - jT0 * tw = cj from by omega]
      · rw [if_neg (by rintro ⟨h1, h2, _, h4, h5, h6⟩; exact hw ⟨h1, h2, h5, h6⟩),
          if_neg (by rintro ⟨h1, h2, _, h5, h6⟩; exact hw ⟨h1, h2, h5, h6⟩)]
        rw [ih Cg r jT0 cj hcj,
          if_neg (by rintro ⟨h1, h2, h3, h5, h6⟩; exact hw ⟨h1, h2, h5, h6⟩)]
    · rw [if_neg (by
        rintro ⟨_, _, h3, h4, _, _⟩
        exact hj (key.mp ⟨h3, h4⟩))]
      rw [ih Cg r jT0 cj hcj]
      refine if_congr ?_ rfl rfl
      constructor
      · rintro ⟨h1, h2, h3, h4, h5⟩
        exact ⟨h1, h2, by omega, h4, h5⟩
      · rintro ⟨h1, h2, h3, h4, h5⟩
        refine ⟨h1, h2, ?_, h4, h5⟩
        rcases Nat.lt_or_ge jT0 nn with h | h
        · exact h
        · exact absurd (by omega : jT0 = nn) hj
    
/-- The outer commit loop over row tiles: with both coordinates decomposed,
exactly the tile `(iT0, jT0)` can commit to the cell, and the committed
value is the tile's local entry; unscheduled or out-of-bounds cells stay
zero. -/
theorem commit_ifold (k1 k3 M tw : ℕ) (T : ℕ → ℕ → ℕ → ℕ → ℚ) (nJ : ℕ) :
    ∀ (nI : ℕ) (iT0 ri jT0 cj : ℕ), ri < M → cj < tw →
      ((List.range nI).foldl
        (fun Cg iT =>
          (List.range nJ).foldl
            (fun Cg jT => commitTile k1 k3 M tw Cg (T iT jT) iT jT) Cg)
        zeroMat) (iT0 * M + ri) (jT0 * tw + cj)
      = if iT0 < nI ∧ jT0 < nJ ∧ iT0 * M + ri < k1 ∧ jT0 * tw + cj < k3 then
          T iT0 jT0 ri cj
        else 0 := by
  intro nI
  induction nI with
  | zero =>
    intro iT0 ri jT0 cj hri hcj
    rw [List.range_zero, List.foldl_nil,
      if_neg (by rintro ⟨h, _, _, _⟩; omega)]
    rfl
  | succ nn ih =>
    intro iT0 ri jT0 cj hri hcj
    rw [List.range_succ, List.foldl_append]
    simp only [List.foldl_cons, List.foldl_nil]
    rw [commit_jfold k1 k3 M tw nn (T nn) nJ _ (iT0 * M + ri) jT0 cj hcj]
    have key : (nn * M ≤ iT0 * M + ri ∧ iT0 * M + ri < nn * M + M)
        ↔ iT0 = nn := by
      constructor
      · rintro ⟨h1, h2⟩
        rcases lt_trichotomy iT0 nn with h | h | h
        · exfalso
          have h4 : (iT0 + 1) * M ≤ nn * M :=
            Nat.mul_le_mul_right M (by omega)
          rw [Nat.succ_mul] at h4
          omega
        · exact h
        · exfalso
          have h4 : (nn + 1) * M ≤ iT0 * M :=
            Nat.mul_le_mul_right M (by omega)
          rw [Nat.succ_mul] at h4
          omega
      · intro h
        rw [h]
        omega
    by_cases hi : iT0 = nn
    · subst hi
      by_cases hw : jT0 < nJ ∧ iT0 * M + ri < k1 ∧ jT0 * tw + cj < k3
      · rw [if_pos ⟨by omega, by omega, hw.1, hw.2.1, hw.2.2⟩,
          if_pos ⟨by omega, hw.1, hw.2.1, hw.2.2⟩]
        rw [show iT0 * M + ri - iT0 * M = ri from by omega]
      · rw [if_neg (by rintro ⟨_, _, h3, h4, h5⟩; exact hw ⟨h3, h4, h5⟩),
          ih iT0 ri jT0 cj hri hcj,
          if_neg (by rintro ⟨_, h3, h4, h5⟩; exact hw ⟨h3, h4, h5⟩),
          if_neg (by rintro ⟨h1, _, _, _⟩; omega)]
    · rw [if_neg (by
        rintro ⟨h1, h2, _, _, _⟩
        exact hi (key.mp ⟨h1, h2⟩))]
      rw [ih iT0 ri jT0 cj hri hcj]
      refine if_congr ?_ rfl rfl
      constructor
      · rintro ⟨h1, h2, h3, h4⟩
        exact ⟨by omega, h2, h3, h4⟩
      · rintro ⟨h1, h2, h3, h4⟩
        refine ⟨?_, h2, h3, h4⟩
        rcases Nat.lt_or_ge iT0 nn with h | h
        · exact h
        · exact absurd (by omega : iT0 = nn) hi

/-- The ceiling-division schedule covers the whole dimension:
`k ≤ ⌈k/M⌉ * M`. -/
theorem ceil_mul_ge (M k : ℕ) (hM : 0 < M) : k ≤ ((k + M - 1) / M) * M := by
  by_contra h
  push_neg at h
  have h2 : ((k + M - 1) / M + 1) * M ≤ k + M - 1 := by
    rw [Nat.succ_mul]
    omega
  have h3 : (k + M - 1) / M + 1 ≤ (k + M - 1) / M :=
    (Nat.le_div_iff_mul_le hM).mpr h2
  omega

/-- The WS pipeline evaluated at a decomposed cell equals the scheduled
tile's local cell (or zero when unscheduled / out of bounds). -/
theorem runTiled_ws_cell (M N k1 k2 k3 : ℕ) (A W : ℕ → ℕ → ℚ)
    (iT0 ri jT0 cj : ℕ) (hri : ri < M) (hcj : cj < phase7TileWidth M N) :
    runTiled false M N k1 k2 k3 A W
        (iT0 * M + ri) (jT0 * phase7TileWidth M N + cj)
      = if iT0 < phase7NumITiles M k1 ∧ jT0 < phase7NumJTiles M N k3 ∧
            iT0 * M + ri < k1 ∧ jT0 * phase7TileWidth M N + cj < k3 then
          ((List.range (phase7NumKTiles M k2)).foldl
            (fun Ct kT =>
              wsTile M N (min M (k1 - iT0 * M)) (min M (k2 - kT * M))
                (min (phase7TileWidth M N)
                  (k3 - jT0 * phase7TileWidth M N))
                (subA k1 k2 M A iT0 kT)
                (subW k2 k3 M (phase7TileWidth M N) W kT jT0) Ct)
            zeroMat) ri cj
        else 0 := by
  exact commit_ifold k1 k3 M (phase7TileWidth M N)
    (fun iT jT ri cj =>
      ((List.range (phase7NumKTiles M k2)).foldl
        (fun Ct kT =>
          wsTile M N (min M (k1 - iT * M)) (min M (k2 - kT * M))
            (min (phase7TileWidth M N) (k3 - jT * phase7TileWidth M N))
            (subA k1 k2 M A iT kT)
            (subW k2 k3 M (phase7TileWidth M N) W kT jT) Ct)
        zeroMat) ri cj)
    (phase7NumJTiles M N k3) (phase7NumITiles M k1) iT0 ri jT0 cj hri hcj

/-- General weight-stationary end-to-end correctness: for every grid size
`M × N` and all logical dimensions, the WS-mode tiled run equals the naive
reference multiply exactly on every in-bounds cell — in particular within
the 1e-3 tolerance. -/
theorem runTiled_ws_correct (M N k1 k2 k3 : ℕ) (A W : ℕ → ℕ → ℚ)
    (hM : 0 < M) (hN : 0 < N) (r c : ℕ) (hr : r < k1) (hc : c < k3) :
    runTiled false M N k1 k2 k3 A W r c = naiveMatMul k2 A W r c
    ∧ |runTiled false M N k1 k2 k3 A W r c - naiveMatMul k2 A W r c|
        ≤ 1 / 1000 := by
  have htw : 0 < phase7TileWidth M N := by
    unfold phase7TileWidth
    split <;> omega
  have hmain : runTiled false M N k1 k2 k3 A W r c = naiveMatMul k2 A W r c := by
    have hrdec := Nat.div_add_mod' r M
    have hcdec := Nat.div_add_mod' c (phase7TileWidth M N)
    have hriM : r % M < M := Nat.mod_lt _ hM
    have hcjt : c % phase7TileWidth M N < phase7TileWidth M N :=
      Nat.mod_lt _ htw
    have hiT : r / M < phase7NumITiles M k1 := by
      rw [Nat.div_lt_iff_lt_mul hM]
      have := ceil_mul_ge M k1 hM
      unfold phase7NumITiles
      omega
    have hjT : c / phase7TileWidth M N < phase7NumJTiles M N k3 := by
      rw [Nat.div_lt_iff_lt_mul htw]
      have := ceil_mul_ge (phase7TileWidth M N) k3 htw
      unfold phase7NumJTiles
      omega
    have hcell := runTiled_ws_cell M N k1 k2 k3 A W (r / M) (r % M)
      (c / phase7TileWidth M N) (c % phase7TileWidth M N) hriM hcjt
    rw [hrdec, hcdec] at hcell
    rw [hcell, if_pos ⟨hiT, hjT, hr, hc⟩]
    rw [ws_kfold M N k1 k2 k3 (r / M) (c / phase7TileWidth M N) A W hM
      (phase7NumKTiles M k2) (r % M) (c % phase7TileWidth M N)]
    have hri2 : r % M < min M (k1 - (r / M) * M) := by
      have h1 : (r / M) * M ≤ r := by
        have := Nat.div_add_mod' r M
        omega
      omega
    have hcj2 : c % phase7TileWidth M N
        < min (phase7TileWidth M N)
            (k3 - (c / phase7TileWidth M N) * phase7TileWidth M N) := by
      have h1 : (c / phase7TileWidth M N) * phase7TileWidth M N ≤ c := by
        have := Nat.div_add_mod' c (phase7TileWidth M N)
        omega
      omega
    rw [if_pos ⟨hri2, hcj2⟩]
    rw [ws_tile_value M N k1 k2 k3 (r / M) (c / phase7TileWidth M N) A W hM
      (r % M) (c % phase7TileWidth M N) hri2 hcj2]
    rw [naiveMatMul, hrdec, hcdec]
  refine ⟨hmain, ?_⟩
  rw [hmain]
  simp

/-- The general WS theorem instantiated at the Phase10 testbench's 16×16
dimensions on a 7×7 grid (the repo's own passing test configuration),
checked at one cell. -/
theorem runTiled_ws_at_phase10_dims :
    0 < 7 ∧ 3 < 16 ∧ 5 < 16
    ∧ runTiled false 7 7 16 16 16 matA2 matW2 3 5
        = naiveMatMul 16 matA2 matW2 3 5 := by
  refine ⟨by norm_num, by norm_num, by norm_num, ?_⟩
  exact (runTiled_ws_correct 7 7 16 16 16 matA2 matW2 (by norm_num)
    (by norm_num) 3 5 (by norm_num) (by norm_num)).1
